import Mathlib

/-!
Verification of the Command-T core sources against their specification.

Two components are modelled, faithfully translated from the C sources:

* `lua/wincent/commandt/watchman.c` — the BSER-style binary protocol codec
  and transport used to talk to the Watchman daemon.  Byte buffers are
  modelled as `List Nat` (each element a byte value), pointer cursors as
  list suffixes, and the `abort()` decode failures as `Option.none`.
  Machine integers are modelled as `Int`/`Nat` with explicit two's-complement
  truncation (`% 2^(8*w)`).

* `lua/wincent/commandt/heap.c` — the fixed-capacity binary heap.

Definitions keep the source names wherever Lean allows it.
-/

/-! ### Little-endian byte strings and two's-complement encoding

The C encoder stores multi-byte integers with `*(intN_t *)(encoded + 1) = v`,
i.e. in the platform's native byte order; the decoder reads them back the
same way, so we fix little-endian order in the model (x86/arm64 hosts).
-/

/-- `w` bytes of `n`, little-endian (`n` is taken modulo `2^(8*w)`). -/
def toBytesLE : Nat → Nat → List Nat
  | 0, _ => []
  | w + 1, n => (n % 256) :: toBytesLE w (n / 256)

/-- Natural number denoted by a little-endian byte string. -/
def fromBytesLE : List Nat → Nat
  | [] => 0
  | b :: bs => b + 256 * fromBytesLE bs

/-- Two's-complement representative (as an unsigned value) of `num` in `w` bytes. -/
def toTwos (w : Nat) (num : Int) : Nat := (num % (2 : Int) ^ (8 * w)).toNat

/-- Signed value denoted by the `w`-byte two's-complement representative `n`. -/
def fromTwos (w : Nat) (n : Nat) : Int :=
  if (n : Int) < 2 ^ (8 * w - 1) then (n : Int) else (n : Int) - 2 ^ (8 * w)

/-- The value of the C cast `(intN_t)num` (truncation to `w` bytes, signed). -/
def truncCast (w : Nat) (num : Int) : Int := fromTwos w (toTwos w num)

theorem toBytesLE_length (w n : Nat) : (toBytesLE w n).length = w := by
  induction w generalizing n with
  | zero => rfl
  | succ w ih => simp [toBytesLE, ih]

theorem fromBytesLE_toBytesLE (w n : Nat) :
    fromBytesLE (toBytesLE w n) = n % 2 ^ (8 * w) := by
  induction w generalizing n with
  | zero => simp [toBytesLE, fromBytesLE, Nat.mod_one]
  | succ w ih =>
      have hpow : (2 : Nat) ^ (8 * (w + 1)) = 256 * 2 ^ (8 * w) := by
        rw [Nat.mul_succ, pow_add]; ring
      rw [toBytesLE, fromBytesLE, ih, hpow]
      have hdm := Nat.div_add_mod (n % (256 * 2 ^ (8 * w))) 256
      have h1 : n % (256 * 2 ^ (8 * w)) % 256 = n % 256 :=
        Nat.mod_mod_of_dvd n ⟨2 ^ (8 * w), rfl⟩
      have h2 : n % (256 * 2 ^ (8 * w)) / 256 = n / 256 % 2 ^ (8 * w) :=
        Nat.mod_mul_right_div_self n 256 (2 ^ (8 * w))
      omega

theorem toTwos_lt (w : Nat) (num : Int) : toTwos w num < 2 ^ (8 * w) := by
  have hpos : (0 : Int) < 2 ^ (8 * w) := by positivity
  have h := Int.emod_lt_of_pos num hpos
  have h0 := Int.emod_nonneg num (ne_of_gt hpos)
  have hcast : (((2 : Nat) ^ (8 * w) : Nat) : Int) = (2 : Int) ^ (8 * w) := by
    push_cast; ring
  unfold toTwos
  omega

theorem pow_split (w : Nat) (hw : 0 < w) :
    (2 : Int) ^ (8 * w) = 2 * 2 ^ (8 * w - 1) := by
  obtain ⟨k, hk⟩ : ∃ k, 8 * w = k + 1 := ⟨8 * w - 1, by omega⟩
  rw [hk]
  simp only [Nat.add_sub_cancel]
  rw [pow_succ]; ring

/-- Round-trip for the two's-complement encoding: any `num` in the signed
`w`-byte range survives truncation. -/
theorem truncCast_eq_of_range (w : Nat) (hw : 0 < w) (num : Int)
    (hlo : -(2 ^ (8 * w - 1)) ≤ num) (hhi : num < 2 ^ (8 * w - 1)) :
    truncCast w num = num := by
  have hsplit := pow_split w hw
  have hpos : (0 : Int) < 2 ^ (8 * w) := by positivity
  unfold truncCast fromTwos toTwos
  rcases le_or_lt 0 num with hnum | hnum
  · have hmod : num % 2 ^ (8 * w) = num := Int.emod_eq_of_lt hnum (by omega)
    rw [hmod]
    have : ((num.toNat : Int)) = num := Int.toNat_of_nonneg hnum
    rw [this]
    simp [hhi]
  · have hmod : num % 2 ^ (8 * w) = num + 2 ^ (8 * w) := by
      have heq : num % 2 ^ (8 * w) = (num + 2 ^ (8 * w)) % 2 ^ (8 * w) := by
        rw [Int.add_emod_self]
      rw [heq]
      exact Int.emod_eq_of_lt (by omega) (by omega)
    rw [hmod]
    have hnn : (0 : Int) ≤ num + 2 ^ (8 * w) := by omega
    have : (((num + 2 ^ (8 * w)).toNat : Int)) = num + 2 ^ (8 * w) :=
      Int.toNat_of_nonneg hnn
    rw [this]
    have : ¬ (num + 2 ^ (8 * w) < 2 ^ (8 * w - 1)) := by omega
    simp only [this, if_false]
    ring

/-- `fromTwos` always lands in the signed `w`-byte range. -/
theorem fromTwos_range (w : Nat) (hw : 0 < w) (n : Nat) (hn : n < 2 ^ (8 * w)) :
    -(2 ^ (8 * w - 1)) ≤ fromTwos w n ∧ fromTwos w n < 2 ^ (8 * w - 1) := by
  have hsplit := pow_split w hw
  unfold fromTwos
  have hn' : (n : Int) < 2 ^ (8 * w) := by exact_mod_cast hn
  by_cases h : (n : Int) < 2 ^ (8 * w - 1)
  · rw [if_pos h]
    constructor
    · have h1 : (0 : Int) ≤ n := Int.natCast_nonneg n
      have h2 : (0 : Int) < 2 ^ (8 * w - 1) := by positivity
      omega
    · exact h
  · rw [if_neg h]
    omega

/-- Truncation is the identity exactly on the signed `w`-byte range: the C
test `num == (intN_t)num` tests exactly "fits in `w` bytes". -/
theorem truncCast_eq_iff (w : Nat) (hw : 0 < w) (num : Int) :
    truncCast w num = num ↔
      -(2 ^ (8 * w - 1)) ≤ num ∧ num < 2 ^ (8 * w - 1) := by
  constructor
  · intro h
    have := fromTwos_range w hw (toTwos w num) (toTwos_lt w num)
    unfold truncCast at h
    omega
  · intro h
    exact truncCast_eq_of_range w hw num h.1 h.2

/-! ### BSER value markers (watchman.c `WATCHMAN_*_MARKER`) -/

def WATCHMAN_ARRAY_MARKER : Nat := 0x00
def WATCHMAN_OBJECT_MARKER : Nat := 0x01
def WATCHMAN_STRING_MARKER : Nat := 0x02
def WATCHMAN_INT8_MARKER : Nat := 0x03
def WATCHMAN_INT16_MARKER : Nat := 0x04
def WATCHMAN_INT32_MARKER : Nat := 0x05
def WATCHMAN_INT64_MARKER : Nat := 0x06
def WATCHMAN_DOUBLE_MARKER : Nat := 0x07
def WATCHMAN_TRUE : Nat := 0x08
def WATCHMAN_FALSE : Nat := 0x09
def WATCHMAN_NIL : Nat := 0x0a
def WATCHMAN_TEMPLATE_MARKER : Nat := 0x0b
def WATCHMAN_SKIP_MARKER : Nat := 0x0c

/-! ### Encoding (`watchman_write_*`)

A `watchman_request_t` is a growable byte buffer; `watchman_append` is list
concatenation, so each writer is modelled as the byte string it appends.
-/

/-- `watchman_write_int` from watchman.c: encodes `num` with the narrowest of
the `int8/int16/int32/int64` forms whose C cast round-trips (`num == (intN_t)num`),
as a one-byte width tag followed by the value's two's-complement bytes. -/
def watchman_write_int (num : Int) : List Nat :=
  if truncCast 1 num = num then
    WATCHMAN_INT8_MARKER :: toBytesLE 1 (toTwos 1 num)
  else if truncCast 2 num = num then
    WATCHMAN_INT16_MARKER :: toBytesLE 2 (toTwos 2 num)
  else if truncCast 4 num = num then
    WATCHMAN_INT32_MARKER :: toBytesLE 4 (toTwos 4 num)
  else
    WATCHMAN_INT64_MARKER :: toBytesLE 8 (toTwos 8 num)

/-- `watchman_write_string`: string marker, encoded length, raw bytes.
Call sites pass either `strlen` (caller data) or `sizeof` (literals, which
includes the trailing NUL); the byte list `s` passed here is exactly the
`length` bytes the C call appends. -/
def watchman_write_string (s : List Nat) : List Nat :=
  WATCHMAN_STRING_MARKER :: (watchman_write_int (s.length : Int) ++ s)

/-- `watchman_write_array`: array marker followed by the encoded count. -/
def watchman_write_array (length : Nat) : List Nat :=
  WATCHMAN_ARRAY_MARKER :: watchman_write_int (length : Int)

/-- `watchman_write_object`: object marker followed by the encoded pair count. -/
def watchman_write_object (size : Nat) : List Nat :=
  WATCHMAN_OBJECT_MARKER :: watchman_write_int (size : Int)

/-! ### Decoding (`watchman_read_*`)

A `watchman_response_t` cursor pair `(ptr, end)` is modelled as the list of
bytes remaining between the two cursors; every reader consumes a prefix and
returns the remaining suffix.  Each C `abort()` becomes `none`.
-/

/-- Integer width selected by a width tag (the `switch` in `watchman_read_int`). -/
def intWidth (tag : Nat) : Option Nat :=
  if tag = WATCHMAN_INT8_MARKER then some 1
  else if tag = WATCHMAN_INT16_MARKER then some 2
  else if tag = WATCHMAN_INT32_MARKER then some 4
  else if tag = WATCHMAN_INT64_MARKER then some 8
  else none

/-- `watchman_read_int` from watchman.c.  The leading bound check models
`val_ptr >= r->end` (at least one byte must follow the tag), then the
per-width check models `val_ptr + sizeof(intN_t) > r->end`. -/
def watchman_read_int (bytes : List Nat) : Option (Int × List Nat) :=
  match bytes with
  | [] => none
  | tag :: payload =>
    if payload = [] then none
    else match intWidth tag with
      | none => none
      | some w =>
        if payload.length < w then none
        else some (fromTwos w (fromBytesLE (payload.take w)), payload.drop w)

/-- `watchman_read_string` from watchman.c.  A negative decoded length makes
the C code call `str_new_copy` with a huge `size_t`, a fatal error, modelled
as `none`. -/
def watchman_read_string (bytes : List Nat) : Option (List Nat × List Nat) :=
  match bytes with
  | [] => none
  | tag :: payload =>
    if tag ≠ WATCHMAN_STRING_MARKER then none
    else if payload = [] then none
    else match watchman_read_int payload with
      | none => none
      | some (len, rest) =>
        if len = 0 then some ([], rest)
        else if len < 0 then none
        else if rest.length < len.toNat then none
        else some (rest.take len.toNat, rest.drop len.toNat)

/-- `watchman_read_double` from watchman.c.  The `double` payload is opaque
here (native byte order); the value is modelled as its 8 raw bytes. -/
def watchman_read_double (bytes : List Nat) : Option (List Nat × List Nat) :=
  if bytes.length < 9 then none
  else match bytes with
    | tag :: payload =>
      if tag = WATCHMAN_DOUBLE_MARKER then some (payload.take 8, payload.drop 8)
      else none
    | [] => none

/-- `watchman_read_array` from watchman.c: marker, bound check
(`r->ptr + 2 > r->end`), count, negative-count check. -/
def watchman_read_array (bytes : List Nat) : Option (Nat × List Nat) :=
  match bytes with
  | [] => none
  | tag :: payload =>
    if tag ≠ WATCHMAN_ARRAY_MARKER then none
    else if payload.length < 2 then none
    else match watchman_read_int payload with
      | none => none
      | some (count, rest) =>
        if count < 0 then none else some (count.toNat, rest)

/-- `watchman_read_object` from watchman.c: same shape as `watchman_read_array`
with the object marker. -/
def watchman_read_object (bytes : List Nat) : Option (Nat × List Nat) :=
  match bytes with
  | [] => none
  | tag :: payload =>
    if tag ≠ WATCHMAN_OBJECT_MARKER then none
    else if payload.length < 2 then none
    else match watchman_read_int payload with
      | none => none
      | some (count, rest) =>
        if count < 0 then none else some (count.toNat, rest)

/-! ### Round-trip and cursor-consumption lemmas for the scalar codec -/

theorem intWidth_pos (tag w : Nat) (h : intWidth tag = some w) : 0 < w := by
  unfold intWidth at h
  split_ifs at h <;> injection h with h <;> omega

theorem intWidth_of_tag3 : intWidth WATCHMAN_INT8_MARKER = some 1 := rfl
theorem intWidth_of_tag4 : intWidth WATCHMAN_INT16_MARKER = some 2 := rfl
theorem intWidth_of_tag5 : intWidth WATCHMAN_INT32_MARKER = some 4 := rfl
theorem intWidth_of_tag6 : intWidth WATCHMAN_INT64_MARKER = some 8 := rfl

/-- Reading an encoded `w`-byte integer consumes exactly the tag and `w` bytes
and yields the signed value of the stored representative. -/
theorem watchman_read_int_encoded (tag w : Nat) (h : intWidth tag = some w)
    (t : Nat) (ht : t < 2 ^ (8 * w)) (rest : List Nat) :
    watchman_read_int (tag :: (toBytesLE w t ++ rest)) = some (fromTwos w t, rest) := by
  have hw : 0 < w := intWidth_pos tag w h
  have hlen : (toBytesLE w t).length = w := toBytesLE_length w t
  have hne : toBytesLE w t ++ rest ≠ [] := by
    intro hc
    have := congrArg List.length hc
    simp [hlen] at this
    omega
  have hnlt : ¬ ((toBytesLE w t ++ rest).length < w) := by
    simp [hlen]
  simp only [watchman_read_int, h, if_neg hne, if_neg hnlt]
  rw [List.take_left' hlen, List.drop_left' hlen,
    fromBytesLE_toBytesLE, Nat.mod_eq_of_lt ht]

/-- Encode-then-decode round-trip for any value in the signed 64-bit range. -/
theorem watchman_read_write_int (num : Int) (h : truncCast 8 num = num)
    (rest : List Nat) :
    watchman_read_int (watchman_write_int num ++ rest) = some (num, rest) := by
  unfold watchman_write_int
  by_cases h1 : truncCast 1 num = num
  · rw [if_pos h1]
    have := watchman_read_int_encoded WATCHMAN_INT8_MARKER 1 intWidth_of_tag3
      (toTwos 1 num) (toTwos_lt 1 num) rest
    rw [List.cons_append, this]
    unfold truncCast at h1
    rw [h1]
  · rw [if_neg h1]
    by_cases h2 : truncCast 2 num = num
    · rw [if_pos h2]
      have := watchman_read_int_encoded WATCHMAN_INT16_MARKER 2 intWidth_of_tag4
        (toTwos 2 num) (toTwos_lt 2 num) rest
      rw [List.cons_append, this]
      unfold truncCast at h2
      rw [h2]
    · rw [if_neg h2]
      by_cases h4 : truncCast 4 num = num
      · rw [if_pos h4]
        have := watchman_read_int_encoded WATCHMAN_INT32_MARKER 4 intWidth_of_tag5
          (toTwos 4 num) (toTwos_lt 4 num) rest
        rw [List.cons_append, this]
        unfold truncCast at h4
        rw [h4]
      · rw [if_neg h4]
        have := watchman_read_int_encoded WATCHMAN_INT64_MARKER 8 intWidth_of_tag6
          (toTwos 8 num) (toTwos_lt 8 num) rest
        rw [List.cons_append, this]
        unfold truncCast at h
        rw [h]

theorem watchman_write_int_length (num : Int) :
    2 ≤ (watchman_write_int num).length ∧ (watchman_write_int num).length ≤ 9 := by
  unfold watchman_write_int
  split_ifs <;> simp [toBytesLE_length]

/-- `watchman_read_int` strictly advances the cursor (tag plus at least one
byte) and never moves past the end. -/
theorem watchman_read_int_consumes (bytes : List Nat) (v : Int) (rest : List Nat)
    (h : watchman_read_int bytes = some (v, rest)) :
    rest.length + 2 ≤ bytes.length ∧ rest <:+ bytes := by
  cases bytes with
  | nil => simp [watchman_read_int] at h
  | cons tag payload =>
    simp only [watchman_read_int] at h
    by_cases hp : payload = []
    · rw [if_pos hp] at h; simp at h
    rw [if_neg hp] at h
    cases hw : intWidth tag with
    | none => simp only [hw] at h; exact absurd h (by simp)
    | some w =>
      simp only [hw] at h
      by_cases hlen : payload.length < w
      · rw [if_pos hlen] at h; simp at h
      rw [if_neg hlen] at h
      simp only [Option.some.injEq, Prod.mk.injEq] at h
      obtain ⟨-, h2⟩ := h
      subst h2
      have hwpos := intWidth_pos tag w hw
      refine ⟨?_, (List.drop_suffix _ _).trans (List.suffix_cons _ _)⟩
      simp only [List.length_drop, List.length_cons]
      omega

theorem truncCast8_eq (num : Int) (hlo : -(2 ^ 63) ≤ num) (hhi : num < 2 ^ 63) :
    truncCast 8 num = num := by
  have h63 : (2 : Int) ^ (8 * 8 - 1) = 2 ^ 63 := by norm_num
  exact truncCast_eq_of_range 8 (by norm_num) num
    (by rw [h63]; exact hlo) (by rw [h63]; exact hhi)

theorem truncCast8_natCast (n : Nat) (h : (n : Int) < 2 ^ 63) :
    truncCast 8 (n : Int) = (n : Int) := by
  refine truncCast8_eq (n : Int) ?_ h
  have h1 : (0 : Int) ≤ n := Int.natCast_nonneg n
  have h2 : (0 : Int) < 2 ^ 63 := by positivity
  omega

/-- Encode-then-decode round-trip for strings: identical bytes and length,
and the cursor lands exactly past the encoded string. -/
theorem watchman_read_write_string (s : List Nat) (hs : (s.length : Int) < 2 ^ 63)
    (rest : List Nat) :
    watchman_read_string (watchman_write_string s ++ rest) = some (s, rest) := by
  have htr : truncCast 8 (s.length : Int) = (s.length : Int) :=
    truncCast8_natCast s.length hs
  have hint := watchman_read_write_int (s.length : Int) htr (s ++ rest)
  have hwl := watchman_write_int_length (s.length : Int)
  unfold watchman_write_string
  rw [List.cons_append, List.append_assoc]
  have hne : watchman_write_int (s.length : Int) ++ (s ++ rest) ≠ [] := by
    intro hc
    have := congrArg List.length hc
    simp only [List.length_append, List.length_nil] at this
    omega
  simp only [watchman_read_string, if_neg (by simp : ¬ (WATCHMAN_STRING_MARKER ≠ WATCHMAN_STRING_MARKER)),
    if_neg hne, hint]
  by_cases hs0 : s.length = 0
  · have hsnil : s = [] := List.length_eq_zero.mp hs0
    simp [hsnil]
  · have hlen0 : ¬ ((s.length : Int) = 0) := by exact_mod_cast hs0
    rw [if_neg hlen0]
    have hneg : ¬ ((s.length : Int) < 0) := by
      have := Int.natCast_nonneg s.length
      omega
    rw [if_neg hneg]
    have htn : ((s.length : Int)).toNat = s.length := Int.toNat_natCast s.length
    have hnlt : ¬ ((s ++ rest).length < ((s.length : Int)).toNat) := by
      simp [htn]
    rw [if_neg hnlt, htn, List.take_left' rfl, List.drop_left' rfl]

/-- `watchman_read_string` strictly advances the cursor and never moves past
the end. -/
theorem watchman_read_string_consumes (bytes : List Nat) (s rest : List Nat)
    (h : watchman_read_string bytes = some (s, rest)) :
    rest.length + 2 ≤ bytes.length ∧ rest <:+ bytes := by
  cases bytes with
  | nil => simp [watchman_read_string] at h
  | cons tag payload =>
    simp only [watchman_read_string] at h
    by_cases htag : tag ≠ WATCHMAN_STRING_MARKER
    · rw [if_pos htag] at h; simp at h
    rw [if_neg htag] at h
    by_cases hp : payload = []
    · rw [if_pos hp] at h; simp at h
    rw [if_neg hp] at h
    cases hint : watchman_read_int payload with
    | none => simp only [hint] at h; exact absurd h (by simp)
    | some p =>
      obtain ⟨len, irest⟩ := p
      have hic := watchman_read_int_consumes payload len irest hint
      simp only [hint] at h
      by_cases hl0 : len = 0
      · rw [if_pos hl0] at h
        simp only [Option.some.injEq, Prod.mk.injEq] at h
        obtain ⟨-, h2⟩ := h
        subst h2
        refine ⟨by simpa using Nat.le_succ_of_le hic.1, hic.2.trans (List.suffix_cons _ _)⟩
      rw [if_neg hl0] at h
      by_cases hlneg : len < 0
      · rw [if_pos hlneg] at h; simp at h
      rw [if_neg hlneg] at h
      by_cases hover : irest.length < len.toNat
      · rw [if_pos hover] at h; simp at h
      rw [if_neg hover] at h
      simp only [Option.some.injEq, Prod.mk.injEq] at h
      obtain ⟨-, h2⟩ := h
      subst h2
      constructor
      · have : (irest.drop len.toNat).length ≤ irest.length := by
          simp [List.length_drop]
        have := hic.1
        simp only [List.length_cons]
        omega
      · exact ((List.drop_suffix _ _).trans hic.2).trans (List.suffix_cons _ _)

/-- Encode-then-decode round-trip for array headers. -/
theorem watchman_read_write_array (n : Nat) (hn : (n : Int) < 2 ^ 63)
    (rest : List Nat) :
    watchman_read_array (watchman_write_array n ++ rest) = some (n, rest) := by
  have htr : truncCast 8 (n : Int) = (n : Int) := truncCast8_natCast n hn
  have hint := watchman_read_write_int (n : Int) htr rest
  have hwl := watchman_write_int_length (n : Int)
  unfold watchman_write_array
  rw [List.cons_append]
  have hne2 : ¬ ((watchman_write_int (n : Int) ++ rest).length < 2) := by
    simp only [List.length_append]
    omega
  simp only [watchman_read_array, if_neg (by simp : ¬ (WATCHMAN_ARRAY_MARKER ≠ WATCHMAN_ARRAY_MARKER)),
    if_neg hne2, hint]
  have hneg : ¬ ((n : Int) < 0) := by
    have := Int.natCast_nonneg n
    omega
  rw [if_neg hneg, Int.toNat_natCast]

/-- Encode-then-decode round-trip for object headers. -/
theorem watchman_read_write_object (n : Nat) (hn : (n : Int) < 2 ^ 63)
    (rest : List Nat) :
    watchman_read_object (watchman_write_object n ++ rest) = some (n, rest) := by
  have htr : truncCast 8 (n : Int) = (n : Int) := truncCast8_natCast n hn
  have hint := watchman_read_write_int (n : Int) htr rest
  have hwl := watchman_write_int_length (n : Int)
  unfold watchman_write_object
  rw [List.cons_append]
  have hne2 : ¬ ((watchman_write_int (n : Int) ++ rest).length < 2) := by
    simp only [List.length_append]
    omega
  simp only [watchman_read_object, if_neg (by simp : ¬ (WATCHMAN_OBJECT_MARKER ≠ WATCHMAN_OBJECT_MARKER)),
    if_neg hne2, hint]
  have hneg : ¬ ((n : Int) < 0) := by
    have := Int.natCast_nonneg n
    omega
  rw [if_neg hneg, Int.toNat_natCast]

/-- `watchman_read_array` strictly advances the cursor (marker plus integer). -/
theorem watchman_read_array_consumes (bytes : List Nat) (n : Nat) (rest : List Nat)
    (h : watchman_read_array bytes = some (n, rest)) :
    rest.length + 3 ≤ bytes.length ∧ rest <:+ bytes := by
  cases bytes with
  | nil => simp [watchman_read_array] at h
  | cons tag payload =>
    simp only [watchman_read_array] at h
    by_cases htag : tag ≠ WATCHMAN_ARRAY_MARKER
    · rw [if_pos htag] at h; simp at h
    rw [if_neg htag] at h
    by_cases hlen : payload.length < 2
    · rw [if_pos hlen] at h; simp at h
    rw [if_neg hlen] at h
    cases hint : watchman_read_int payload with
    | none => simp only [hint] at h; exact absurd h (by simp)
    | some p =>
      obtain ⟨count, irest⟩ := p
      have hic := watchman_read_int_consumes payload count irest hint
      simp only [hint] at h
      by_cases hneg : count < 0
      · rw [if_pos hneg] at h; simp at h
      rw [if_neg hneg] at h
      simp only [Option.some.injEq, Prod.mk.injEq] at h
      obtain ⟨-, h2⟩ := h
      subst h2
      refine ⟨?_, hic.2.trans (List.suffix_cons _ _)⟩
      have := hic.1
      simp only [List.length_cons]
      omega

/-- `watchman_read_object` strictly advances the cursor (marker plus integer). -/
theorem watchman_read_object_consumes (bytes : List Nat) (n : Nat) (rest : List Nat)
    (h : watchman_read_object bytes = some (n, rest)) :
    rest.length + 3 ≤ bytes.length ∧ rest <:+ bytes := by
  cases bytes with
  | nil => simp [watchman_read_object] at h
  | cons tag payload =>
    simp only [watchman_read_object] at h
    by_cases htag : tag ≠ WATCHMAN_OBJECT_MARKER
    · rw [if_pos htag] at h; simp at h
    rw [if_neg htag] at h
    by_cases hlen : payload.length < 2
    · rw [if_pos hlen] at h; simp at h
    rw [if_neg hlen] at h
    cases hint : watchman_read_int payload with
    | none => simp only [hint] at h; exact absurd h (by simp)
    | some p =>
      obtain ⟨count, irest⟩ := p
      have hic := watchman_read_int_consumes payload count irest hint
      simp only [hint] at h
      by_cases hneg : count < 0
      · rw [if_pos hneg] at h; simp at h
      rw [if_neg hneg] at h
      simp only [Option.some.injEq, Prod.mk.injEq] at h
      obtain ⟨-, h2⟩ := h
      subst h2
      refine ⟨?_, hic.2.trans (List.suffix_cons _ _)⟩
      have := hic.1
      simp only [List.length_cons]
      omega

/-- `watchman_read_double` consumes exactly the marker and 8 payload bytes. -/
theorem watchman_read_double_consumes (bytes : List Nat) (d rest : List Nat)
    (h : watchman_read_double bytes = some (d, rest)) :
    rest.length + 9 = bytes.length ∧ rest <:+ bytes := by
  unfold watchman_read_double at h
  by_cases hlen : bytes.length < 9
  · rw [if_pos hlen] at h; simp at h
  rw [if_neg hlen] at h
  cases bytes with
  | nil => simp at hlen
  | cons tag payload =>
    by_cases htag : tag = WATCHMAN_DOUBLE_MARKER
    · simp only [htag, if_pos rfl] at h
      simp only [Option.some.injEq, Prod.mk.injEq, if_pos] at h
      obtain ⟨-, h2⟩ := h
      subst h2
      simp only [List.length_cons] at hlen ⊢
      refine ⟨?_, (List.drop_suffix _ _).trans (List.suffix_cons _ _)⟩
      simp only [List.length_drop]
      omega
    · simp only [if_neg htag] at h
      exact absurd h (by simp)

/-! ### `watchman_skip_value`

The C function recurses through arbitrarily nested values.  We model it with
a structural `fuel` parameter bounding the nesting depth; each recursive
descent strips at least one byte, so `bytes.length + 1` fuel always suffices
(`watchman_skip_value` below), and `skipFuel_stable` proves the result is
independent of the fuel — which is exactly the termination argument, well
founded on the number of remaining bytes.  The two nested `for` loops of the
template case perform `object_count * key_count` consecutive skips, modelled
with that product.
-/

/-- Run a skipping step `n` times in sequence (the `for` loops of
`watchman_skip_value`). -/
def skipSeq (f : List Nat → Option (List Nat)) : Nat → List Nat → Option (List Nat)
  | 0, bytes => some bytes
  | n + 1, bytes => (f bytes).bind (skipSeq f n)

/-- `watchman_skip_value` from watchman.c, with explicit depth fuel. -/
def skipFuel : Nat → List Nat → Option (List Nat)
  | 0, _ => none
  | fuel + 1, bytes =>
    match bytes with
    | [] => none
    | tag :: rest0 =>
      if tag = WATCHMAN_ARRAY_MARKER then
        (watchman_read_array (tag :: rest0)).bind fun p => skipSeq (skipFuel fuel) p.1 p.2
      else if tag = WATCHMAN_OBJECT_MARKER then
        (watchman_read_object (tag :: rest0)).bind fun p => skipSeq (skipFuel fuel) p.1 p.2
      else if tag = WATCHMAN_STRING_MARKER then
        Option.map Prod.snd (watchman_read_string (tag :: rest0))
      else if tag = WATCHMAN_INT8_MARKER ∨ tag = WATCHMAN_INT16_MARKER ∨
          tag = WATCHMAN_INT32_MARKER ∨ tag = WATCHMAN_INT64_MARKER then
        Option.map Prod.snd (watchman_read_int (tag :: rest0))
      else if tag = WATCHMAN_DOUBLE_MARKER then
        Option.map Prod.snd (watchman_read_double (tag :: rest0))
      else if tag = WATCHMAN_TRUE ∨ tag = WATCHMAN_FALSE ∨ tag = WATCHMAN_NIL ∨
          tag = WATCHMAN_SKIP_MARKER then
        some rest0
      else if tag = WATCHMAN_TEMPLATE_MARKER then
        (watchman_read_array rest0).bind fun kp =>
          (skipSeq (skipFuel fuel) kp.1 kp.2).bind fun rest1 =>
            (watchman_read_array rest1).bind fun op =>
              skipSeq (skipFuel fuel) (op.1 * kp.1) op.2
      else none

/-- `watchman_skip_value`: each nesting level consumes at least one byte, so
`length + 1` fuel always suffices (`skipFuel_stable` below). -/
def watchman_skip_value (bytes : List Nat) : Option (List Nat) :=
  skipFuel (bytes.length + 1) bytes

theorem skipSeq_consumes (f : List Nat → Option (List Nat))
    (hf : ∀ b r, f b = some r → r.length < b.length ∧ r <:+ b) :
    ∀ (n : Nat) (bytes rest : List Nat), skipSeq f n bytes = some rest →
      rest.length ≤ bytes.length ∧ rest <:+ bytes := by
  intro n
  induction n with
  | zero =>
      intro bytes rest h
      simp only [skipSeq, Option.some.injEq] at h
      subst h
      exact ⟨le_refl _, List.suffix_refl _⟩
  | succ n ih =>
      intro bytes rest h
      simp only [skipSeq] at h
      cases hstep : f bytes with
      | none => rw [hstep] at h; simp at h
      | some mid =>
          rw [hstep] at h
          simp only [Option.some_bind] at h
          have h1 := hf bytes mid hstep
          have h2 := ih mid rest h
          exact ⟨le_trans h2.1 (le_of_lt h1.1), h2.2.trans h1.2⟩

/-- Every successful skip strictly advances the cursor and never moves past
the end. -/
theorem skipFuel_consumes : ∀ (fuel : Nat) (bytes rest : List Nat),
    skipFuel fuel bytes = some rest → rest.length < bytes.length ∧ rest <:+ bytes := by
  intro fuel
  induction fuel with
  | zero => intro bytes rest h; simp [skipFuel] at h
  | succ fuel ih =>
      intro bytes rest h
      cases bytes with
      | nil => simp [skipFuel] at h
      | cons tag rest0 =>
          simp only [skipFuel] at h
          split_ifs at h with h1 h2 h3 h4 h5 h6 h7
          · -- array
            cases harr : watchman_read_array (tag :: rest0) with
            | none => rw [harr] at h; simp at h
            | some p =>
                obtain ⟨count, irest⟩ := p
                rw [harr] at h
                simp only [Option.some_bind] at h
                have hc := watchman_read_array_consumes _ _ _ harr
                have hs := skipSeq_consumes (skipFuel fuel) (fun b r hb => ih b r hb)
                  count irest rest h
                exact ⟨by omega, hs.2.trans hc.2⟩
          · -- object
            cases hobj : watchman_read_object (tag :: rest0) with
            | none => rw [hobj] at h; simp at h
            | some p =>
                obtain ⟨count, irest⟩ := p
                rw [hobj] at h
                simp only [Option.some_bind] at h
                have hc := watchman_read_object_consumes _ _ _ hobj
                have hs := skipSeq_consumes (skipFuel fuel) (fun b r hb => ih b r hb)
                  count irest rest h
                exact ⟨by omega, hs.2.trans hc.2⟩
          · -- string
            cases hstr : watchman_read_string (tag :: rest0) with
            | none => rw [hstr] at h; simp at h
            | some p =>
                obtain ⟨s, irest⟩ := p
                rw [hstr] at h
                simp only [Option.map_some'] at h
                injection h with h
                subst h
                have hc := watchman_read_string_consumes _ _ _ hstr
                exact ⟨by omega, hc.2⟩
          · -- int
            cases hint : watchman_read_int (tag :: rest0) with
            | none => rw [hint] at h; simp at h
            | some p =>
                obtain ⟨v, irest⟩ := p
                rw [hint] at h
                simp only [Option.map_some'] at h
                injection h with h
                subst h
                have hc := watchman_read_int_consumes _ _ _ hint
                exact ⟨by omega, hc.2⟩
          · -- double
            cases hdbl : watchman_read_double (tag :: rest0) with
            | none => rw [hdbl] at h; simp at h
            | some p =>
                obtain ⟨d, irest⟩ := p
                rw [hdbl] at h
                simp only [Option.map_some'] at h
                injection h with h
                subst h
                have hc := watchman_read_double_consumes _ _ _ hdbl
                exact ⟨by omega, hc.2⟩
          · -- true/false/nil/skip
            injection h with h
            subst h
            exact ⟨by simp, List.suffix_cons _ _⟩
          · -- template
            cases harr : watchman_read_array rest0 with
            | none => rw [harr] at h; simp at h
            | some kp =>
                obtain ⟨key_count, krest⟩ := kp
                rw [harr] at h
                simp only [Option.some_bind] at h
                cases hseq1 : skipSeq (skipFuel fuel) key_count krest with
                | none => rw [hseq1] at h; simp at h
                | some rest1 =>
                    rw [hseq1] at h
                    simp only [Option.some_bind] at h
                    cases harr2 : watchman_read_array rest1 with
                    | none => rw [harr2] at h; simp at h
                    | some op =>
                        obtain ⟨object_count, orest⟩ := op
                        rw [harr2] at h
                        simp only [Option.some_bind] at h
                        have hc1 := watchman_read_array_consumes _ _ _ harr
                        have hs1 := skipSeq_consumes (skipFuel fuel)
                          (fun b r hb => ih b r hb) key_count krest rest1 hseq1
                        have hc2 := watchman_read_array_consumes _ _ _ harr2
                        have hs2 := skipSeq_consumes (skipFuel fuel)
                          (fun b r hb => ih b r hb) (object_count * key_count) orest rest h
                        refine ⟨?_, (((hs2.2.trans hc2.2).trans hs1.2).trans hc1.2).trans
                          (List.suffix_cons _ _)⟩
                        have := hc1.1
                        have := hs1.1
                        have := hc2.1
                        have := hs2.1
                        simp only [List.length_cons]
                        omega

theorem skipSeq_congr (f g : List Nat → Option (List Nat)) (bound : Nat)
    (hfg : ∀ b : List Nat, b.length ≤ bound → f b = g b)
    (hf : ∀ b r, f b = some r → r.length < b.length ∧ r <:+ b) :
    ∀ (n : Nat) (bytes : List Nat), bytes.length ≤ bound →
      skipSeq f n bytes = skipSeq g n bytes := by
  intro n
  induction n with
  | zero => intro bytes hb; rfl
  | succ n ih =>
      intro bytes hb
      simp only [skipSeq]
      rw [← hfg bytes hb]
      cases hstep : f bytes with
      | none => rfl
      | some mid =>
          simp only [Option.some_bind]
          exact ih mid (le_trans (le_of_lt (hf bytes mid hstep).1) hb)

/-- Fuel-independence of `skipFuel` above the byte count: the recursion is
well founded on the number of remaining bytes, so any fuel exceeding it
gives the same result (the termination argument for `watchman_skip_value`). -/
theorem skipFuel_stable : ∀ (n : Nat) (bytes : List Nat), bytes.length ≤ n →
    ∀ (f1 f2 : Nat), bytes.length < f1 → bytes.length < f2 →
      skipFuel f1 bytes = skipFuel f2 bytes := by
  intro n
  induction n using Nat.strong_induction_on with
  | _ n ih =>
    intro bytes hb f1 f2 h1 h2
    obtain ⟨g1, rfl⟩ : ∃ g, f1 = g + 1 := ⟨f1 - 1, by omega⟩
    obtain ⟨g2, rfl⟩ : ∃ g, f2 = g + 1 := ⟨f2 - 1, by omega⟩
    cases bytes with
    | nil => rfl
    | cons tag rest0 =>
      simp only [List.length_cons] at hb h1 h2
      simp only [skipFuel]
      split_ifs with ht1 ht2 ht3 ht4 ht5 ht6 ht7
      · -- array
        cases harr : watchman_read_array (tag :: rest0) with
        | none => rfl
        | some p =>
          obtain ⟨count, irest⟩ := p
          simp only [Option.some_bind]
          have hc := watchman_read_array_consumes _ _ _ harr
          have hc1 := hc.1
          simp only [List.length_cons] at hc1
          refine skipSeq_congr (skipFuel g1) (skipFuel g2) irest.length
            (fun b hble => ih irest.length (by omega) b hble g1 g2 (by omega) (by omega))
            (fun b r hb2 => skipFuel_consumes g1 b r hb2) count irest (le_refl _)
      · -- object
        cases hobj : watchman_read_object (tag :: rest0) with
        | none => rfl
        | some p =>
          obtain ⟨count, irest⟩ := p
          simp only [Option.some_bind]
          have hc := watchman_read_object_consumes _ _ _ hobj
          have hc1 := hc.1
          simp only [List.length_cons] at hc1
          refine skipSeq_congr (skipFuel g1) (skipFuel g2) irest.length
            (fun b hble => ih irest.length (by omega) b hble g1 g2 (by omega) (by omega))
            (fun b r hb2 => skipFuel_consumes g1 b r hb2) count irest (le_refl _)
      · rfl
      · rfl
      · rfl
      · rfl
      · -- template
        cases harr : watchman_read_array rest0 with
        | none => rfl
        | some kp =>
          obtain ⟨key_count, krest⟩ := kp
          simp only [Option.some_bind]
          have hc1 := (watchman_read_array_consumes _ _ _ harr).1
          have hseq_eq : skipSeq (skipFuel g1) key_count krest =
              skipSeq (skipFuel g2) key_count krest :=
            skipSeq_congr (skipFuel g1) (skipFuel g2) krest.length
              (fun b hble => ih krest.length (by omega) b hble g1 g2 (by omega) (by omega))
              (fun b r hb2 => skipFuel_consumes g1 b r hb2) key_count krest (le_refl _)
          rw [hseq_eq]
          cases hseq1 : skipSeq (skipFuel g2) key_count krest with
          | none => rfl
          | some rest1 =>
            simp only [Option.some_bind]
            have hs1 := skipSeq_consumes (skipFuel g2)
              (fun b r hb2 => skipFuel_consumes g2 b r hb2) key_count krest rest1 hseq1
            have hs11 := hs1.1
            cases harr2 : watchman_read_array rest1 with
            | none => rfl
            | some op =>
              obtain ⟨object_count, orest⟩ := op
              simp only [Option.some_bind]
              have hc2 := (watchman_read_array_consumes _ _ _ harr2).1
              exact skipSeq_congr (skipFuel g1) (skipFuel g2) orest.length
                (fun b hble => ih orest.length (by omega) b hble g1 g2 (by omega) (by omega))
                (fun b r hb2 => skipFuel_consumes g1 b r hb2)
                (object_count * key_count) orest (le_refl _)
      · rfl

/-- Any fuel larger than the remaining byte count computes
`watchman_skip_value`. -/
theorem watchman_skip_value_fuel (fuel : Nat) (bytes : List Nat)
    (h : bytes.length < fuel) :
    skipFuel fuel bytes = watchman_skip_value bytes :=
  skipFuel_stable bytes.length bytes (le_refl _) fuel (bytes.length + 1) h
    (Nat.lt_succ_self _)

/-- `watchman_skip_value` strictly advances the cursor and never moves past
the end. -/
theorem watchman_skip_value_consumes (bytes rest : List Nat)
    (h : watchman_skip_value bytes = some rest) :
    rest.length < bytes.length ∧ rest <:+ bytes :=
  skipFuel_consumes (bytes.length + 1) bytes rest h

/-! ### Bounded priority queue (heap.c)

`heap_t` stores borrowed opaque entries ordered by a caller-supplied
comparator; `count` is `entries.length` and `capacity` is fixed.  Raw index
accesses (`heap->entries[i]`) are modelled with `List.getD` at `default`;
the C loops in `heap_insert`/`heap_heapify` are modelled with a structural
fuel argument that the specs below show is always sufficient (`idx` strictly
decreases when bubbling up, and strictly increases below `count` when
sifting down).
-/

structure heap_t (α : Type) where
  comparator : α → α → Int
  capacity : Nat
  entries : List α

/-- `HEAP_PARENT` from heap.c. -/
def HEAP_PARENT (index : Nat) : Nat := (index - 1) / 2

/-- `HEAP_LEFT` from heap.c. -/
def HEAP_LEFT (index : Nat) : Nat := 2 * index + 1

/-- `HEAP_RIGHT` from heap.c. -/
def HEAP_RIGHT (index : Nat) : Nat := 2 * index + 2

/-- `heap->entries[i]` (raw pointer read; indices are in bounds in practice). -/
def heap_get [Inhabited α] (h : heap_t α) (i : Nat) : α := h.entries.getD i default

/-- `heap_compare` from heap.c. -/
def heap_compare [Inhabited α] (h : heap_t α) (a_idx b_idx : Nat) : Int :=
  h.comparator (heap_get h a_idx) (heap_get h b_idx)

/-- `heap_property` from heap.c: 1 iff the parent/child relation holds. -/
def heap_property [Inhabited α] (h : heap_t α) (parent_idx child_idx : Nat) : Prop :=
  heap_compare h parent_idx child_idx > 0

instance [Inhabited α] (h : heap_t α) (p c : Nat) : Decidable (heap_property h p c) := by
  unfold heap_property; infer_instance

/-- `heap_swap` from heap.c. -/
def heap_swap [Inhabited α] (h : heap_t α) (a b : Nat) : heap_t α :=
  { h with entries := (h.entries.set a (heap_get h b)).set b (heap_get h a) }

/-- `heap_new` from heap.c (`count` starts at 0). -/
def heap_new (capacity : Nat) (comparator : α → α → Int) : heap_t α :=
  { comparator := comparator, capacity := capacity, entries := [] }

/-- The bubble-upwards loop of `heap_insert`; `fuel ≥ idx` always suffices
because the index strictly decreases. -/
def heap_bubble_up [Inhabited α] : Nat → heap_t α → Nat → heap_t α
  | 0, h, _ => h
  | fuel + 1, h, idx =>
    if idx = 0 then h
    else
      let parent_idx := HEAP_PARENT idx
      if heap_property h parent_idx idx then h
      else heap_bubble_up fuel (heap_swap h idx parent_idx) parent_idx

/-- `heap_insert` from heap.c: silently dropped at capacity, otherwise the
value is placed in the first empty slot and bubbled upwards. -/
def heap_insert [Inhabited α] (h : heap_t α) (value : α) : heap_t α :=
  if h.entries.length = h.capacity then h
  else
    let idx := h.entries.length
    let h2 : heap_t α := { h with entries := h.entries ++ [value] }
    heap_bubble_up idx h2 idx

/-- The `smallest_idx` selection of `heap_heapify` (the nested ternary in
heap.c): with two children in range, the one that dominates the other under
the comparator; with one, that one; otherwise `idx` itself. -/
def heap_smallest [Inhabited α] (h : heap_t α) (idx : Nat) : Nat :=
  if HEAP_RIGHT idx < h.entries.length then
    (if heap_compare h (HEAP_LEFT idx) (HEAP_RIGHT idx) > 0 then HEAP_LEFT idx
     else HEAP_RIGHT idx)
  else if HEAP_LEFT idx < h.entries.length then HEAP_LEFT idx
  else idx

/-- `heap_heapify` from heap.c; `fuel + idx ≥ count` suffices because the
index strictly increases and stays below `count` while recursing. -/
def heap_heapify [Inhabited α] : Nat → heap_t α → Nat → heap_t α
  | 0, h, _ => h
  | fuel + 1, h, idx =>
    let smallest_idx := heap_smallest h idx
    if smallest_idx ≠ idx ∧ ¬ heap_property h idx smallest_idx then
      heap_heapify fuel (heap_swap h idx smallest_idx) smallest_idx
    else h

/-- `heap_extract` from heap.c: `NULL` on empty becomes `none`; otherwise the
root is removed, the last entry moves into the root slot, and the new root
is sifted downward. -/
def heap_extract [Inhabited α] (h : heap_t α) : Option α × heap_t α :=
  if h.entries.length = 0 then (none, h)
  else
    let extracted := heap_get h 0
    let last := heap_get h (h.entries.length - 1)
    let h2 : heap_t α := { h with entries := (h.entries.set 0 last).dropLast }
    (some extracted, heap_heapify h2.entries.length h2 0)

/-- Repeatedly extract until empty (at most `fuel` times). -/
def heap_extract_all [Inhabited α] : Nat → heap_t α → List α
  | 0, _ => []
  | fuel + 1, h =>
    match heap_extract h with
    | (none, _) => []
    | (some v, h2) => v :: heap_extract_all fuel h2

/-- Extract every entry of the heap in order. -/
def heap_drain [Inhabited α] (h : heap_t α) : List α :=
  heap_extract_all h.entries.length h

/-- Insert a stream of values in order. -/
def heap_insert_all [Inhabited α] (xs : List α) (h : heap_t α) : heap_t α :=
  xs.foldl heap_insert h

/-- A heap operation (for stating invariants over arbitrary sequences). -/
inductive HeapOp (α : Type) where
  | ins (v : α)
  | ext

def heap_apply [Inhabited α] (h : heap_t α) : HeapOp α → heap_t α
  | .ins v => heap_insert h v
  | .ext => (heap_extract h).2

def heap_apply_all [Inhabited α] (ops : List (HeapOp α)) (h : heap_t α) : heap_t α :=
  ops.foldl heap_apply h

/-! ### List index helpers for the heap proofs -/

theorem getD_set_self (l : List α) (i : Nat) (x d : α) (h : i < l.length) :
    (l.set i x).getD i d = x := by
  simp [List.getD, List.getElem?_set_self, h]

theorem getD_set_ne (l : List α) (i j : Nat) (x d : α) (h : i ≠ j) :
    (l.set i x).getD j d = l.getD j d := by
  simp [List.getD, List.getElem?_set_ne h]

theorem set_getD_self (l : List α) (i : Nat) (d : α) (h : i < l.length) :
    l.set i (l.getD i d) = l := by
  induction l generalizing i with
  | nil => simp at h
  | cons hd tl ih =>
      cases i with
      | zero => simp [List.getD]
      | succ i =>
          simp only [List.length_cons] at h
          simp only [List.getD_cons_succ, List.set_cons_succ]
          rw [ih i (by omega)]

theorem getD_cons_set_perm (tl : List α) (k : Nat) (z d : α) (h : k < tl.length) :
    List.Perm (tl.getD k d :: tl.set k z) (z :: tl) := by
  induction tl generalizing k with
  | nil => simp at h
  | cons c t ih =>
      cases k with
      | zero => simpa using List.Perm.swap z c t
      | succ k =>
          simp only [List.length_cons] at h
          simp only [List.getD_cons_succ, List.set_cons_succ]
          exact ((List.Perm.swap c (t.getD k d) (t.set k z)).trans
            ((ih k (by omega)).cons c)).trans (List.Perm.swap z c t)

/-- Swapping two in-range entries of a list is a permutation. -/
theorem set_set_swap_perm (l : List α) (a b : Nat) (d : α)
    (ha : a < l.length) (hb : b < l.length) :
    List.Perm ((l.set a (l.getD b d)).set b (l.getD a d)) l := by
  induction l generalizing a b with
  | nil => simp at ha
  | cons hd tl ih =>
      cases a with
      | zero =>
          cases b with
          | zero => simp [set_getD_self]
          | succ m =>
              simp only [List.length_cons] at hb
              simp only [List.getD_cons_succ, List.getD_cons_zero, List.set_cons_zero,
                List.set_cons_succ]
              exact getD_cons_set_perm tl m hd d (by omega)
      | succ n =>
          cases b with
          | zero =>
              simp only [List.length_cons] at ha
              simp only [List.getD_cons_succ, List.getD_cons_zero, List.set_cons_zero,
                List.set_cons_succ]
              exact getD_cons_set_perm tl n hd d (by omega)
          | succ m =>
              simp only [List.length_cons] at ha hb
              simp only [List.getD_cons_succ, List.set_cons_succ]
              exact (ih n m (by omega) (by omega)).cons hd

/-! ### Heap invariants and correctness -/

/-- The comparator "does not beat" relation is transitive (a total preorder
is what the spec means by a total, caller-supplied comparator). -/
def CmpTrans (cmp : α → α → Int) : Prop :=
  ∀ a b c, cmp a b ≤ 0 → cmp b c ≤ 0 → cmp a c ≤ 0

/-- Any two values compare one way or the other. -/
def CmpTotal (cmp : α → α → Int) : Prop :=
  ∀ a b, cmp a b ≤ 0 ∨ cmp b a ≤ 0

theorem cmp_refl_le (cmp : α → α → Int) (htot : CmpTotal cmp) (a : α) :
    cmp a a ≤ 0 := by
  rcases htot a a with h | h <;> exact h

/-- The heap invariant as maintained by heap.c: no child beats its parent
(`heap_property parent child` fails to hold only transiently during sifts;
what every reachable state satisfies is that children never strictly
dominate). -/
def HeapInv [Inhabited α] (h : heap_t α) : Prop :=
  ∀ i, 0 < i → i < h.entries.length →
    h.comparator (heap_get h i) (heap_get h (HEAP_PARENT i)) ≤ 0

theorem heap_swap_length [Inhabited α] (h : heap_t α) (a b : Nat) :
    (heap_swap h a b).entries.length = h.entries.length := by
  simp [heap_swap]

theorem heap_swap_comparator [Inhabited α] (h : heap_t α) (a b : Nat) :
    (heap_swap h a b).comparator = h.comparator := rfl

theorem heap_swap_capacity [Inhabited α] (h : heap_t α) (a b : Nat) :
    (heap_swap h a b).capacity = h.capacity := rfl

theorem heap_swap_perm [Inhabited α] (h : heap_t α) (a b : Nat)
    (ha : a < h.entries.length) (hb : b < h.entries.length) :
    List.Perm (heap_swap h a b).entries h.entries :=
  set_set_swap_perm h.entries a b default ha hb

theorem heap_get_swap [Inhabited α] (h : heap_t α) (a b i : Nat)
    (ha : a < h.entries.length) (hb : b < h.entries.length) :
    heap_get (heap_swap h a b) i =
      if i = b then heap_get h a
      else if i = a then heap_get h b
      else heap_get h i := by
  unfold heap_get heap_swap
  by_cases hib : i = b
  · subst hib
    rw [if_pos rfl]
    exact getD_set_self _ _ _ _ (by simp [List.length_set]; omega)
  · rw [if_neg hib, getD_set_ne _ _ _ _ _ (fun hc => hib hc.symm)]
    by_cases hia : i = a
    · subst hia
      rw [if_pos rfl]
      exact getD_set_self _ _ _ _ ha
    · rw [if_neg hia, getD_set_ne _ _ _ _ _ (fun hc => hia hc.symm)]

theorem HEAP_PARENT_lt (i : Nat) (hi : 0 < i) : HEAP_PARENT i < i := by
  unfold HEAP_PARENT; omega

theorem HEAP_PARENT_children (c j : Nat) (hc : 0 < c) :
    HEAP_PARENT c = j ↔ c = HEAP_LEFT j ∨ c = HEAP_RIGHT j := by
  unfold HEAP_PARENT HEAP_LEFT HEAP_RIGHT; omega

/-- In a heap state satisfying the invariant, the root dominates everything. -/
theorem heap_root_dominates [Inhabited α] (h : heap_t α)
    (htot : CmpTotal h.comparator) (htr : CmpTrans h.comparator)
    (hinv : HeapInv h) :
    ∀ i, i < h.entries.length → h.comparator (heap_get h i) (heap_get h 0) ≤ 0 := by
  intro i
  induction i using Nat.strong_induction_on with
  | _ i ih =>
      intro hilen
      cases Nat.eq_zero_or_pos i with
      | inl h0 => subst h0; exact cmp_refl_le _ htot _
      | inr hpos =>
          have hp := HEAP_PARENT_lt i hpos
          exact htr _ _ _ (hinv i hpos hilen) (ih (HEAP_PARENT i) hp (by omega))

/-- Root dominance in membership form. -/
theorem heap_root_dominates_mem [Inhabited α] (h : heap_t α)
    (htot : CmpTotal h.comparator) (htr : CmpTrans h.comparator)
    (hinv : HeapInv h) :
    ∀ x ∈ h.entries, h.comparator x (heap_get h 0) ≤ 0 := by
  intro x hx
  obtain ⟨i, hi, hget⟩ := List.mem_iff_getElem.mp hx
  have : heap_get h i = x := by
    unfold heap_get
    simp [List.getD, List.getElem?_eq_getElem hi, hget]
  rw [← this]
  exact heap_root_dominates h htot htr hinv i hi

/-- Invariant of the bubble-up loop: every parent/child pair except the one
above `j` satisfies the relation, and the children of `j` (if any) are
dominated by `j`'s parent. -/
def BubbleInv [Inhabited α] (h : heap_t α) (j : Nat) : Prop :=
  (∀ i, 0 < i → i < h.entries.length → i ≠ j →
      h.comparator (heap_get h i) (heap_get h (HEAP_PARENT i)) ≤ 0) ∧
  (∀ c, 0 < c → c < h.entries.length → HEAP_PARENT c = j → 0 < j →
      h.comparator (heap_get h c) (heap_get h (HEAP_PARENT j)) ≤ 0)

theorem heap_bubble_up_spec [Inhabited α] :
    ∀ (fuel : Nat) (h : heap_t α) (j : Nat),
      CmpTotal h.comparator → CmpTrans h.comparator →
      j ≤ fuel → j < h.entries.length → BubbleInv h j →
      (heap_bubble_up fuel h j).comparator = h.comparator ∧
      (heap_bubble_up fuel h j).capacity = h.capacity ∧
      (heap_bubble_up fuel h j).entries.length = h.entries.length ∧
      List.Perm (heap_bubble_up fuel h j).entries h.entries ∧
      HeapInv (heap_bubble_up fuel h j) := by
  intro fuel
  induction fuel with
  | zero =>
      intro h j htot htr hj hjlen hinv
      have hj0 : j = 0 := by omega
      subst hj0
      exact ⟨rfl, rfl, rfl, List.Perm.refl _, fun i h1 h2 => hinv.1 i h1 h2 (by omega)⟩
  | succ fuel ih =>
      intro h j htot htr hj hjlen hinv
      simp only [heap_bubble_up]
      by_cases hj0 : j = 0
      · rw [if_pos hj0]
        subst hj0
        exact ⟨rfl, rfl, rfl, List.Perm.refl _, fun i h1 h2 => hinv.1 i h1 h2 (by omega)⟩
      · rw [if_neg hj0]
        by_cases hprop : heap_property h (HEAP_PARENT j) j
        · rw [if_pos hprop]
          refine ⟨rfl, rfl, rfl, List.Perm.refl _, ?_⟩
          intro i h1 h2
          by_cases hij : i = j
          · subst hij
            unfold heap_property heap_compare at hprop
            rcases htot (heap_get h i) (heap_get h (HEAP_PARENT i)) with hc | hc
            · exact hc
            · omega
          · exact hinv.1 i h1 h2 hij
        · rw [if_neg hprop]
          have hplt : HEAP_PARENT j < j := HEAP_PARENT_lt j (by omega)
          have hplen : HEAP_PARENT j < h.entries.length := by omega
          have hswlen := heap_swap_length h j (HEAP_PARENT j)
          have hg := fun i => heap_get_swap h j (HEAP_PARENT j) i hjlen hplen
          have hnprop : h.comparator (heap_get h (HEAP_PARENT j)) (heap_get h j) ≤ 0 := by
            unfold heap_property heap_compare at hprop
            omega
          have hbi : BubbleInv (heap_swap h j (HEAP_PARENT j)) (HEAP_PARENT j) := by
            constructor
            · intro i h1 h2 hip
              rw [hswlen] at h2
              show h.comparator _ _ ≤ 0
              rw [hg i, hg (HEAP_PARENT i)]
              by_cases hij : i = j
              · subst hij
                rw [if_neg hip, if_pos rfl, if_pos rfl]
                exact hnprop
              · rw [if_neg hip, if_neg hij]
                by_cases hpij : HEAP_PARENT i = j
                · have hij_gt : j < i := by
                    unfold HEAP_PARENT at hpij
                    omega
                  rw [if_neg (by omega), if_pos hpij]
                  exact hinv.2 i h1 h2 hpij (by omega)
                · by_cases hpip : HEAP_PARENT i = HEAP_PARENT j
                  · rw [if_pos hpip]
                    exact htr _ _ _ (by
                      have := hinv.1 i h1 h2 hij
                      rw [hpip] at this
                      exact this) hnprop
                  · rw [if_neg hpip, if_neg hpij]
                    exact hinv.1 i h1 h2 hij
            · intro c h1 h2 hpc hppos
              rw [hswlen] at h2
              show h.comparator _ _ ≤ 0
              have hc_gt : HEAP_PARENT j < c := by
                have := HEAP_PARENT_lt c h1
                omega
              have hgp_lt : HEAP_PARENT (HEAP_PARENT j) < HEAP_PARENT j :=
                HEAP_PARENT_lt _ hppos
              rw [hg c, hg (HEAP_PARENT (HEAP_PARENT j))]
              rw [if_neg (show ¬ HEAP_PARENT (HEAP_PARENT j) = HEAP_PARENT j by omega),
                if_neg (show ¬ HEAP_PARENT (HEAP_PARENT j) = j by omega)]
              have hpj_pair : h.comparator (heap_get h (HEAP_PARENT j))
                  (heap_get h (HEAP_PARENT (HEAP_PARENT j))) ≤ 0 :=
                hinv.1 (HEAP_PARENT j) hppos hplen (by omega)
              by_cases hcj : c = j
              · rw [if_neg (show ¬ c = HEAP_PARENT j by omega), if_pos hcj]
                exact hpj_pair
              · rw [if_neg (show ¬ c = HEAP_PARENT j by omega), if_neg hcj]
                have hcp : h.comparator (heap_get h c) (heap_get h (HEAP_PARENT c)) ≤ 0 :=
                  hinv.1 c h1 h2 hcj
                rw [hpc] at hcp
                exact htr _ _ _ hcp hpj_pair
          have hrec := ih (heap_swap h j (HEAP_PARENT j)) (HEAP_PARENT j)
            htot htr (by omega) (by omega) hbi
          refine ⟨hrec.1, hrec.2.1, ?_, ?_, hrec.2.2.2.2⟩
          · rw [hrec.2.2.1, hswlen]
          · exact hrec.2.2.2.1.trans (heap_swap_perm h j (HEAP_PARENT j) hjlen hplen)

/-- `heap_insert` below capacity: appends, bubbles up, and preserves the
invariant; the stored multiset gains exactly `v`. -/
theorem heap_insert_spec [Inhabited α] (h : heap_t α) (v : α)
    (htot : CmpTotal h.comparator) (htr : CmpTrans h.comparator)
    (hinv : HeapInv h) (hlt : h.entries.length < h.capacity) :
    (heap_insert h v).comparator = h.comparator ∧
    (heap_insert h v).capacity = h.capacity ∧
    (heap_insert h v).entries.length = h.entries.length + 1 ∧
    List.Perm (heap_insert h v).entries (v :: h.entries) ∧
    HeapInv (heap_insert h v) := by
  unfold heap_insert
  rw [if_neg (by omega)]
  have hlen2 : (h.entries ++ [v]).length = h.entries.length + 1 := by simp
  have hbi : BubbleInv { h with entries := h.entries ++ [v] } h.entries.length := by
    constructor
    · intro i h1 h2 hij
      simp only [hlen2] at h2
      have hilt : i < h.entries.length := by omega
      have hplt : HEAP_PARENT i < h.entries.length := by
        have := HEAP_PARENT_lt i h1
        omega
      show h.comparator _ _ ≤ 0
      unfold heap_get
      simp only []
      rw [List.getD_append _ _ _ _ hilt, List.getD_append _ _ _ _ hplt]
      exact hinv i h1 hilt
    · intro c h1 h2 hpc hj
      simp only [hlen2] at h2
      have : c = 2 * h.entries.length + 1 ∨ c = 2 * h.entries.length + 2 := by
        unfold HEAP_PARENT at hpc
        omega
      omega
  have hspec := heap_bubble_up_spec h.entries.length
    { h with entries := h.entries ++ [v] } h.entries.length htot htr (le_refl _)
    (by simp) hbi
  refine ⟨hspec.1, hspec.2.1, ?_, ?_, hspec.2.2.2.2⟩
  · rw [hspec.2.2.1]; exact hlen2
  · refine hspec.2.2.2.1.trans ?_
    simpa using (@List.perm_append_comm α h.entries [v])

/-- `heap_insert` at capacity is the identity (silent drop). -/
theorem heap_insert_full [Inhabited α] (h : heap_t α) (v : α)
    (hfull : h.entries.length = h.capacity) :
    heap_insert h v = h := by
  unfold heap_insert
  rw [if_pos hfull]

theorem heap_smallest_ne [Inhabited α] (h : heap_t α) (idx : Nat)
    (hs : heap_smallest h idx ≠ idx) :
    HEAP_PARENT (heap_smallest h idx) = idx ∧ idx < heap_smallest h idx ∧
      heap_smallest h idx < h.entries.length := by
  unfold heap_smallest at hs ⊢
  split_ifs at hs ⊢ with h1 h2 h3
  · unfold HEAP_PARENT HEAP_LEFT HEAP_RIGHT at *
    omega
  · unfold HEAP_PARENT HEAP_LEFT HEAP_RIGHT at *
    omega
  · unfold HEAP_PARENT HEAP_LEFT HEAP_RIGHT at *
    omega
  · omega

theorem heap_smallest_eq_no_children [Inhabited α] (h : heap_t α) (idx : Nat)
    (hs : heap_smallest h idx = idx) (hpos : 0 < idx ∨ 0 < h.entries.length) :
    ∀ c, HEAP_PARENT c = idx → 0 < c → c < h.entries.length → False := by
  intro c hpc hcpos hclen
  unfold heap_smallest at hs
  split_ifs at hs with h1 h2 h3
  · unfold HEAP_LEFT HEAP_RIGHT HEAP_PARENT at *
    omega
  · unfold HEAP_LEFT HEAP_RIGHT HEAP_PARENT at *
    omega
  · unfold HEAP_LEFT HEAP_RIGHT HEAP_PARENT at *
    omega
  · unfold HEAP_LEFT HEAP_RIGHT HEAP_PARENT at *
    omega

/-- The selected child dominates any other child of `idx` in range. -/
theorem heap_smallest_dominates [Inhabited α] (h : heap_t α) (idx : Nat)
    (htot : CmpTotal h.comparator) (hs : heap_smallest h idx ≠ idx) :
    ∀ o, 0 < o → o < h.entries.length → HEAP_PARENT o = idx →
      o ≠ heap_smallest h idx →
      h.comparator (heap_get h o) (heap_get h (heap_smallest h idx)) ≤ 0 := by
  intro o hopos holen hpo hos
  unfold heap_smallest at hs hos ⊢
  split_ifs at hs hos ⊢ with h1 h2 h3
  · -- both children, left selected: o must be the right child
    have ho : o = HEAP_RIGHT idx := by
      unfold HEAP_PARENT HEAP_LEFT HEAP_RIGHT at *
      omega
    subst ho
    unfold heap_compare at h2
    rcases htot (heap_get h (HEAP_RIGHT idx)) (heap_get h (HEAP_LEFT idx)) with hc | hc
    · exact hc
    · omega
  · -- both children, right selected: o must be the left child
    have ho : o = HEAP_LEFT idx := by
      unfold HEAP_PARENT HEAP_LEFT HEAP_RIGHT at *
      omega
    subst ho
    unfold heap_compare at h2
    omega
  · -- only the left child exists
    exfalso
    unfold HEAP_PARENT HEAP_LEFT HEAP_RIGHT at *
    omega
  · exact absurd rfl hs

/-- Invariant of the sift-down recursion: every pair whose parent is not `j`
satisfies the relation, and the children of `j` are dominated by `j`'s
parent when `j` is not the root. -/
def DownInv [Inhabited α] (h : heap_t α) (j : Nat) : Prop :=
  (∀ i, 0 < i → i < h.entries.length → HEAP_PARENT i ≠ j →
      h.comparator (heap_get h i) (heap_get h (HEAP_PARENT i)) ≤ 0) ∧
  (∀ c, 0 < c → c < h.entries.length → HEAP_PARENT c = j → 0 < j →
      h.comparator (heap_get h c) (heap_get h (HEAP_PARENT j)) ≤ 0)

theorem heap_heapify_spec [Inhabited α] :
    ∀ (fuel : Nat) (h : heap_t α) (j : Nat),
      CmpTotal h.comparator → CmpTrans h.comparator →
      h.entries.length ≤ fuel + j → DownInv h j →
      (heap_heapify fuel h j).comparator = h.comparator ∧
      (heap_heapify fuel h j).capacity = h.capacity ∧
      (heap_heapify fuel h j).entries.length = h.entries.length ∧
      List.Perm (heap_heapify fuel h j).entries h.entries ∧
      HeapInv (heap_heapify fuel h j) := by
  intro fuel
  induction fuel with
  | zero =>
      intro h j htot htr hfl hinv
      refine ⟨rfl, rfl, rfl, List.Perm.refl _, ?_⟩
      show HeapInv h
      intro i h1 h2
      refine hinv.1 i h1 h2 ?_
      have := HEAP_PARENT_lt i h1
      omega
  | succ fuel ih =>
      intro h j htot htr hfl hinv
      simp only [heap_heapify]
      by_cases hcond : heap_smallest h j ≠ j ∧ ¬ heap_property h j (heap_smallest h j)
      · rw [if_pos hcond]
        obtain ⟨hsne, hsprop⟩ := hcond
        obtain ⟨hps, hjs, hslen⟩ := heap_smallest_ne h j hsne
        have hjlen : j < h.entries.length := by omega
        have hswlen := heap_swap_length h j (heap_smallest h j)
        have hg := fun i => heap_get_swap h j (heap_smallest h j) i hjlen hslen
        have hnprop : h.comparator (heap_get h j) (heap_get h (heap_smallest h j)) ≤ 0 := by
          unfold heap_property heap_compare at hsprop
          omega
        have hdom := heap_smallest_dominates h j htot hsne
        have hdi : DownInv (heap_swap h j (heap_smallest h j)) (heap_smallest h j) := by
          constructor
          · intro i h1 h2 hpis
            rw [hswlen] at h2
            show h.comparator _ _ ≤ 0
            rw [hg i, hg (HEAP_PARENT i)]
            by_cases his : i = heap_smallest h j
            · rw [if_pos his, his, hps]
              rw [if_neg (show ¬ j = heap_smallest h j by omega), if_pos rfl]
              exact hnprop
            · rw [if_neg his]
              by_cases hij : i = j
              · rw [if_pos hij, hij]
                have hjpos : 0 < j := by omega
                have hgp_lt : HEAP_PARENT j < j := HEAP_PARENT_lt j hjpos
                rw [if_neg (show ¬ HEAP_PARENT j = heap_smallest h j by omega),
                  if_neg (show ¬ HEAP_PARENT j = j by omega)]
                exact hinv.2 (heap_smallest h j) (by omega) hslen hps hjpos
              · rw [if_neg hij]
                by_cases hpij : HEAP_PARENT i = j
                · rw [if_neg hpis, if_pos hpij]
                  exact hdom i h1 h2 hpij his
                · rw [if_neg hpis, if_neg hpij]
                  exact hinv.1 i h1 h2 hpij
          · intro c h1 h2 hpc hspos
            rw [hswlen] at h2
            show h.comparator _ _ ≤ 0
            have hcs : heap_smallest h j < c := by
              have := HEAP_PARENT_lt c h1
              omega
            rw [hps, hg c, hg j]
            rw [if_neg (show ¬ c = heap_smallest h j by omega),
              if_neg (show ¬ c = j by omega),
              if_neg (show ¬ j = heap_smallest h j by omega), if_pos rfl]
            have := hinv.1 c h1 h2 (by rw [hpc]; omega)
            rw [hpc] at this
            exact this
        have hrec := ih (heap_swap h j (heap_smallest h j)) (heap_smallest h j)
          htot htr (by omega) hdi
        refine ⟨hrec.1, hrec.2.1, ?_, ?_, hrec.2.2.2.2⟩
        · rw [hrec.2.2.1, hswlen]
        · exact hrec.2.2.2.1.trans (heap_swap_perm h j (heap_smallest h j) hjlen hslen)
      · rw [if_neg hcond]
        refine ⟨rfl, rfl, rfl, List.Perm.refl _, ?_⟩
        intro i h1 h2
        by_cases hpij : HEAP_PARENT i = j
        · by_cases hseq : heap_smallest h j = j
          · exact (heap_smallest_eq_no_children h j hseq (Or.inr (by omega))
              i hpij h1 h2).elim
          · have hprop : heap_property h j (heap_smallest h j) := by
              by_contra hnp
              exact hcond ⟨hseq, hnp⟩
            unfold heap_property heap_compare at hprop
            rw [hpij]
            by_cases his : i = heap_smallest h j
            · rw [his]
              rcases htot (heap_get h (heap_smallest h j)) (heap_get h j) with hc | hc
              · exact hc
              · omega
            · exact htr _ _ _ (heap_smallest_dominates h j htot hseq i h1 h2 hpij his)
                (by
                  rcases htot (heap_get h (heap_smallest h j)) (heap_get h j) with hc | hc
                  · exact hc
                  · omega)
        · exact hinv.1 i h1 h2 hpij

theorem getD_dropLast : ∀ (l : List α) (i : Nat) (d : α), i < l.length - 1 →
    l.dropLast.getD i d = l.getD i d
  | [], i, d, h => by simp at h
  | [a], i, d, h => by simp at h
  | a :: b :: tl, 0, d, h => by rfl
  | a :: b :: tl, i + 1, d, h => by
      show ((b :: tl).dropLast).getD i d = (b :: tl).getD i d
      refine getD_dropLast (b :: tl) i d ?_
      simp only [List.length_cons] at h ⊢
      omega

theorem getD_length_sub_one : ∀ (l : List α) (d : α) (h : l ≠ []),
    l.getD (l.length - 1) d = l.getLast h
  | [a], _, _ => rfl
  | a :: b :: tl, d, h => by
      have ih := getD_length_sub_one (b :: tl) d (by simp)
      show (a :: b :: tl).getD (tl.length + 1) d = _
      rw [List.getD_cons_succ]
      rw [List.getLast_cons (by simp : b :: tl ≠ [])]
      simpa using ih

theorem set_zero_dropLast_perm (l : List α) (d : α) (hl : 0 < l.length) :
    List.Perm ((l.set 0 (l.getD (l.length - 1) d)).dropLast) l.tail := by
  cases l with
  | nil => simp at hl
  | cons hd tl =>
      by_cases htl : tl = []
      · subst htl; simp
      · have hTlen : 0 < tl.length := List.length_pos.mpr htl
        have hget : (hd :: tl).getD ((hd :: tl).length - 1) d = tl.getD (tl.length - 1) d := by
          obtain ⟨k, hk⟩ : ∃ k, tl.length = k + 1 := ⟨tl.length - 1, by omega⟩
          show (hd :: tl).getD (tl.length + 1 - 1) d = _
          rw [hk]
          simp only [Nat.add_sub_cancel, List.getD_cons_succ]
        rw [hget, getD_length_sub_one tl d htl]
        show List.Perm ((tl.getLast htl :: tl).dropLast) tl
        rw [List.dropLast_cons_of_ne_nil htl]
        conv_rhs => rw [← List.dropLast_append_getLast htl]
        simpa using (@List.perm_append_comm α [tl.getLast htl] tl.dropLast)

theorem heap_extract_eq [Inhabited α] (h : heap_t α) (hne : 0 < h.entries.length) :
    heap_extract h = (some (heap_get h 0),
      heap_heapify
        ((h.entries.set 0 (heap_get h (h.entries.length - 1))).dropLast).length
        { h with entries :=
            (h.entries.set 0 (heap_get h (h.entries.length - 1))).dropLast } 0) := by
  unfold heap_extract
  rw [if_neg (by omega)]

/-- `heap_extract` on a non-empty heap: returns the root, drops one entry
(the remaining multiset is the old one minus the root), and restores the
invariant. -/
theorem heap_extract_spec [Inhabited α] (h : heap_t α)
    (htot : CmpTotal h.comparator) (htr : CmpTrans h.comparator)
    (hinv : HeapInv h) (hne : 0 < h.entries.length) :
    (heap_extract h).1 = some (heap_get h 0) ∧
    (heap_extract h).2.comparator = h.comparator ∧
    (heap_extract h).2.capacity = h.capacity ∧
    (heap_extract h).2.entries.length = h.entries.length - 1 ∧
    List.Perm (heap_extract h).2.entries h.entries.tail ∧
    HeapInv (heap_extract h).2 := by
  rw [heap_extract_eq h hne]
  have hlen2 : ((h.entries.set 0 (heap_get h (h.entries.length - 1))).dropLast).length
      = h.entries.length - 1 := by
    simp [List.length_dropLast, List.length_set]
  have hdi : DownInv { h with entries :=
      (h.entries.set 0 (heap_get h (h.entries.length - 1))).dropLast } 0 := by
    constructor
    · intro i h1 h2 hpi0
      show h.comparator _ _ ≤ 0
      unfold heap_get
      simp only []
      simp only [hlen2] at h2
      have hplt : HEAP_PARENT i < i := HEAP_PARENT_lt i h1
      have hps : 0 < HEAP_PARENT i := by
        unfold HEAP_PARENT at hpi0 ⊢
        omega
      rw [getD_dropLast _ _ _ (by simp [List.length_set]; omega),
        getD_dropLast _ _ _ (by simp [List.length_set]; omega),
        getD_set_ne _ _ _ _ _ (by omega), getD_set_ne _ _ _ _ _ (by omega)]
      exact hinv i h1 (by omega)
    · intro c h1 h2 hpc h0
      omega
  have hspec := heap_heapify_spec
    ((h.entries.set 0 (heap_get h (h.entries.length - 1))).dropLast).length
    { h with entries := (h.entries.set 0 (heap_get h (h.entries.length - 1))).dropLast }
    0 htot htr (Nat.le_add_right _ 0) hdi
  refine ⟨rfl, hspec.1, hspec.2.1, ?_, ?_, hspec.2.2.2.2⟩
  · show (heap_heapify _ _ 0).entries.length = _
    rw [hspec.2.2.1]
    exact hlen2
  · show List.Perm (heap_heapify _ _ 0).entries _
    refine hspec.2.2.2.1.trans ?_
    exact set_zero_dropLast_perm h.entries default hne

/-- Draining a heap that satisfies the invariant yields a permutation of its
entries in which no later element beats an earlier one. -/
theorem heap_extract_all_spec [Inhabited α] :
    ∀ (fuel : Nat) (h : heap_t α),
      CmpTotal h.comparator → CmpTrans h.comparator → HeapInv h →
      h.entries.length ≤ fuel →
      List.Perm (heap_extract_all fuel h) h.entries ∧
      List.Pairwise (fun a b => h.comparator b a ≤ 0) (heap_extract_all fuel h) := by
  intro fuel
  induction fuel with
  | zero =>
      intro h htot htr hinv hlen
      have he : h.entries = [] := List.length_eq_zero.mp (by omega)
      simp [heap_extract_all, he]
  | succ fuel ih =>
      intro h htot htr hinv hlen
      simp only [heap_extract_all]
      by_cases hne : h.entries.length = 0
      · have he : h.entries = [] := List.length_eq_zero.mp hne
        have hext : heap_extract h = (none, h) := by
          unfold heap_extract
          rw [if_pos hne]
        rw [hext]
        simp [he]
      · have hpos : 0 < h.entries.length := by omega
        have hsp := heap_extract_spec h htot htr hinv hpos
        have hx : heap_extract h = (some (heap_get h 0), (heap_extract h).2) := by
          have hpe : heap_extract h = ((heap_extract h).1, (heap_extract h).2) := rfl
          rw [hpe, hsp.1]
        rw [hx]
        have htot2 : CmpTotal (heap_extract h).2.comparator := by
          rw [hsp.2.1]; exact htot
        have htr2 : CmpTrans (heap_extract h).2.comparator := by
          rw [hsp.2.1]; exact htr
        have hrec := ih (heap_extract h).2 htot2 htr2 hsp.2.2.2.2.2
          (by rw [hsp.2.2.2.1]; omega)
        have hhead : h.entries = heap_get h 0 :: h.entries.tail := by
          cases hcase : h.entries with
          | nil => rw [hcase] at hpos; simp at hpos
          | cons a tl =>
              unfold heap_get
              rw [hcase]
              rfl
        constructor
        · refine (List.Perm.cons _ (hrec.1.trans hsp.2.2.2.2.1)).trans ?_
          rw [← hhead]
        · refine List.Pairwise.cons ?_ ?_
          · intro x hxmem
            have hx2 : x ∈ (heap_extract h).2.entries := (hrec.1.mem_iff).mp hxmem
            have hx3 : x ∈ h.entries.tail := (hsp.2.2.2.2.1.mem_iff).mp hx2
            have hx4 : x ∈ h.entries := List.mem_of_mem_tail hx3
            exact heap_root_dominates_mem h htot htr hinv x hx4
          · have := hrec.2
            rw [hsp.2.1] at this
            exact this

/-- Inserting a stream of values (while capacity allows) preserves the
invariant and stores exactly the inserted multiset. -/
theorem heap_insert_all_spec [Inhabited α] :
    ∀ (xs : List α) (h : heap_t α),
      CmpTotal h.comparator → CmpTrans h.comparator → HeapInv h →
      h.entries.length + xs.length ≤ h.capacity →
      (heap_insert_all xs h).comparator = h.comparator ∧
      (heap_insert_all xs h).capacity = h.capacity ∧
      (heap_insert_all xs h).entries.length = h.entries.length + xs.length ∧
      List.Perm (heap_insert_all xs h).entries (xs ++ h.entries) ∧
      HeapInv (heap_insert_all xs h) := by
  intro xs
  induction xs with
  | nil =>
      intro h htot htr hinv hcap
      exact ⟨rfl, rfl, rfl, List.Perm.refl _, hinv⟩
  | cons x tl ih =>
      intro h htot htr hinv hcap
      simp only [List.length_cons] at hcap
      show (heap_insert_all tl (heap_insert h x)).comparator = h.comparator ∧
        (heap_insert_all tl (heap_insert h x)).capacity = h.capacity ∧
        (heap_insert_all tl (heap_insert h x)).entries.length =
          h.entries.length + (x :: tl).length ∧
        List.Perm (heap_insert_all tl (heap_insert h x)).entries ((x :: tl) ++ h.entries) ∧
        HeapInv (heap_insert_all tl (heap_insert h x))
      have hx := heap_insert_spec h x htot htr hinv (by omega)
      have hrec := ih (heap_insert h x)
        (by rw [hx.1]; exact htot) (by rw [hx.1]; exact htr) hx.2.2.2.2
        (by rw [hx.2.1, hx.2.2.1]; omega)
      refine ⟨hrec.1.trans hx.1, hrec.2.1.trans hx.2.1, ?_, ?_, hrec.2.2.2.2⟩
      · rw [hrec.2.2.1, hx.2.2.1]
        simp only [List.length_cons]
        omega
      · refine hrec.2.2.2.1.trans ?_
        refine (List.Perm.append_left tl hx.2.2.2.1).trans ?_
        simpa using List.perm_middle

/-! ### Transport (`watchman_send_query` from watchman.c)

The socket is modelled by the byte count `send` reports written (`sent`,
`-1` on error) and the byte stream the daemon will deliver (`stream`).  A
`recv` returns at most the bytes available; the first two receives peek
without consuming, so all three steps look at the start of the same stream.
The `int8_t` cast of the size tag makes bytes ≥ 0x80 negative in C; such
bytes fail the `< WATCHMAN_INT8_MARKER` check there and fail the
`WATCHMAN_INT64_MARKER <` check here, with the same outcome.  Note the C
code sets `r->end = r->payload + peek_size + payload_size` even though
`payload_size` already counts the `peek_size` header bytes; `endIdx`
reproduces that faithfully. -/

structure watchman_response_t where
  data : List Nat
  ptrIdx : Nat
  endIdx : Nat
  deriving Repr, DecidableEq

/-- The `sizes[]` table in `watchman_send_query` (indices 3..6 are used). -/
def watchman_sizes (idx : Nat) : Nat :=
  if idx = 3 then 1 else if idx = 4 then 2 else if idx = 5 then 4
  else if idx = 6 then 8 else 0

def watchman_send_query (request : List Nat) (sent : Int) (stream : List Nat) :
    Option watchman_response_t :=
  if sent = -1 ∨ sent ≠ (request.length : Int) then none
  else if stream.length < 3 then none
  else if stream.getD 2 0 < WATCHMAN_INT8_MARKER ∨
      WATCHMAN_INT64_MARKER < stream.getD 2 0 then none
  else if stream.length < 3 + watchman_sizes (stream.getD 2 0) then none
  else
    match watchman_read_int
        ((stream.take (3 + watchman_sizes (stream.getD 2 0))).drop 2) with
    | none => none
    | some (declared, _) =>
      if ((3 + watchman_sizes (stream.getD 2 0) : Nat) : Int) + declared < 0 then none
      else if (stream.length : Int) <
          ((3 + watchman_sizes (stream.getD 2 0) : Nat) : Int) + declared then none
      else some { data := stream.take
                    (((3 + watchman_sizes (stream.getD 2 0) : Nat) : Int)
                      + declared).toNat,
                  ptrIdx := 3 + watchman_sizes (stream.getD 2 0),
                  endIdx := 3 + watchman_sizes (stream.getD 2 0) +
                    (((3 + watchman_sizes (stream.getD 2 0) : Nat) : Int)
                      + declared).toNat }

/-! ### Request builders (query operations, watchman.c)

The literal strings passed with `sizeof(...)` include their trailing NUL
byte; caller-supplied strings are passed with `strlen` and have none. -/

/-- `WATCHMAN_HEADER`: binary marker, int64 tag, 8 placeholder bytes. -/
def WATCHMAN_HEADER_BYTES : List Nat := [0, 1, 6, 0, 0, 0, 0, 0, 0, 0, 0]

def queryChars : List Nat := [113, 117, 101, 114, 121]
def expressionChars : List Nat := [101, 120, 112, 114, 101, 115, 115, 105, 111, 110]
def typeChars : List Nat := [116, 121, 112, 101]
def fChars : List Nat := [102]
def fieldsChars : List Nat := [102, 105, 101, 108, 100, 115]
def nameChars : List Nat := [110, 97, 109, 101]
def relativeRootChars : List Nat :=
  [114, 101, 108, 97, 116, 105, 118, 101, 95, 114, 111, 111, 116]
def watchProjectChars : List Nat :=
  [119, 97, 116, 99, 104, 45, 112, 114, 111, 106, 101, 99, 116]
def watchChars : List Nat := [119, 97, 116, 99, 104]
def relativePathChars : List Nat :=
  [114, 101, 108, 97, 116, 105, 118, 101, 95, 112, 97, 116, 104]
def errorChars : List Nat := [101, 114, 114, 111, 114]

/-- The request built by `commandt_watchman_query` (watchman.c lines 384-399):
`["query", root, {"expression": ["type","f"], "fields": ["name"],
("relative_root": rr)?}]`, after the blank PDU header. -/
def commandt_watchman_query_request (root : List Nat)
    (relative_root : Option (List Nat)) : List Nat :=
  WATCHMAN_HEADER_BYTES
  ++ watchman_write_array 3
  ++ watchman_write_string (queryChars ++ [0])
  ++ watchman_write_string root
  ++ watchman_write_object (if relative_root.isSome then 3 else 2)
  ++ watchman_write_string (expressionChars ++ [0])
  ++ watchman_write_array 2
  ++ watchman_write_string (typeChars ++ [0])
  ++ watchman_write_string (fChars ++ [0])
  ++ watchman_write_string (fieldsChars ++ [0])
  ++ watchman_write_array 1
  ++ watchman_write_string (nameChars ++ [0])
  ++ (match relative_root with
      | some rr => watchman_write_string (relativeRootChars ++ [0]) ++
          watchman_write_string rr
      | none => [])

/-- The request built by `commandt_watchman_watch_project` (watchman.c lines
481-484): `["watch-project", root]` after the blank PDU header. -/
def commandt_watchman_watch_project_request (root : List Nat) : List Nat :=
  WATCHMAN_HEADER_BYTES
  ++ watchman_write_array 2
  ++ watchman_write_string (watchProjectChars ++ [0])
  ++ watchman_write_string root

/-! ### Response processing of `commandt_watchman_watch_project` -/

structure watchman_watch_project_result_t where
  watch : Option (List Nat)
  relative_path : Option (List Nat)
  deriving Repr, DecidableEq

/-- One loop iteration per key/value pair (watchman.c lines 500-526): read
the key string; on "watch" or "relative_path" read the string value into the
result; on "error" abort; otherwise skip the value. -/
def watchProjectPairs : Nat → watchman_watch_project_result_t → List Nat →
    Option (watchman_watch_project_result_t × List Nat)
  | 0, acc, bytes => some (acc, bytes)
  | n + 1, acc, bytes =>
    match watchman_read_string bytes with
    | none => none
    | some (key, rest) =>
      if key = watchChars then
        match watchman_read_string rest with
        | none => none
        | some (w, rest2) => watchProjectPairs n { acc with watch := some w } rest2
      else if key = relativePathChars then
        match watchman_read_string rest with
        | none => none
        | some (rp, rest2) =>
            watchProjectPairs n { acc with relative_path := some rp } rest2
      else if key = errorChars then none
      else
        match watchman_skip_value rest with
        | none => none
        | some rest2 => watchProjectPairs n acc rest2

/-- The response-processing phase of `commandt_watchman_watch_project`
(watchman.c lines 496-529): `xcalloc` zeroes the result, so both fields
start absent; the object header gives the pair count; after the loop a
missing "watch" value is a hard failure (`abort`). -/
def commandt_watchman_watch_project_process (bytes : List Nat) :
    Option watchman_watch_project_result_t :=
  match watchman_read_object bytes with
  | none => none
  | some (count, rest) =>
    match watchProjectPairs count { watch := none, relative_path := none } rest with
    | none => none
    | some (result, _) => if result.watch = none then none else some result

/-! ### `commandt_watchman_query` (watchman.c lines 368-411) -/

structure watchman_query_result_t where
  files : Option (List (List Nat))
  deriving Repr, DecidableEq

/-- `commandt_watchman_query`: builds the request, exchanges it, then frees
the response without decoding anything (the extraction steps are `TODO`
comments in the source) and returns a result allocated with `xmalloc` whose
fields are never populated — modelled as `files := none`.  When
`watchman_send_query` fails, `watchman_response_free(NULL)` dereferences a
null pointer: a fatal error, modelled as `none`.  The struct
`watchman_query_result_t` is declared in watchman.h, which is not under
src/; its `files` field is modelled from the spec ("file list"). -/
def commandt_watchman_query (root : List Nat) (relative_root : Option (List Nat))
    (sent : Int) (stream : List Nat) : Option watchman_query_result_t :=
  match watchman_send_query (commandt_watchman_query_request root relative_root)
      sent stream with
  | none => none
  | some _ => some { files := none }

/-! ### Claim theorems -/

theorem watchman_write_int_head (num : Int) :
    (watchman_write_int num).head? =
      some (if truncCast 1 num = num then WATCHMAN_INT8_MARKER
        else if truncCast 2 num = num then WATCHMAN_INT16_MARKER
        else if truncCast 4 num = num then WATCHMAN_INT32_MARKER
        else WATCHMAN_INT64_MARKER) := by
  unfold watchman_write_int
  split_ifs <;> rfl

theorem truncCast1_iff (num : Int) :
    truncCast 1 num = num ↔ -(2 ^ 7) ≤ num ∧ num < 2 ^ 7 := by
  have := truncCast_eq_iff 1 (by norm_num) num
  norm_num at this
  norm_num
  exact this

theorem truncCast2_iff (num : Int) :
    truncCast 2 num = num ↔ -(2 ^ 15) ≤ num ∧ num < 2 ^ 15 := by
  have := truncCast_eq_iff 2 (by norm_num) num
  norm_num at this
  norm_num
  exact this

theorem truncCast4_iff (num : Int) :
    truncCast 4 num = num ↔ -(2 ^ 31) ≤ num ∧ num < 2 ^ 31 := by
  have := truncCast_eq_iff 4 (by norm_num) num
  norm_num at this
  norm_num
  exact this

/-- Claim C4: encoding any signed 64-bit value with `watchman_write_int` and
decoding with `watchman_read_int` returns the exact original value, and the
encoder selects the narrowest of the four widths (8/16/32/64 bit
two's-complement) that represents the value exactly, recording it as the
one-byte tag preceding the payload. -/
theorem claim_C4_write_int_roundtrip_narrowest (num : Int) (rest : List Nat)
    (hlo : -(2 ^ 63) ≤ num) (hhi : num < 2 ^ 63) :
    watchman_read_int (watchman_write_int num ++ rest) = some (num, rest) ∧
    ((watchman_write_int num).head? = some WATCHMAN_INT8_MARKER ↔
      -(2 ^ 7) ≤ num ∧ num < 2 ^ 7) ∧
    ((watchman_write_int num).head? = some WATCHMAN_INT16_MARKER ↔
      (-(2 ^ 15) ≤ num ∧ num < 2 ^ 15) ∧ ¬ (-(2 ^ 7) ≤ num ∧ num < 2 ^ 7)) ∧
    ((watchman_write_int num).head? = some WATCHMAN_INT32_MARKER ↔
      (-(2 ^ 31) ≤ num ∧ num < 2 ^ 31) ∧ ¬ (-(2 ^ 15) ≤ num ∧ num < 2 ^ 15)) ∧
    ((watchman_write_int num).head? = some WATCHMAN_INT64_MARKER ↔
      ¬ (-(2 ^ 31) ≤ num ∧ num < 2 ^ 31)) := by
  have e1 := truncCast1_iff num
  have e2 := truncCast2_iff num
  have e4 := truncCast4_iff num
  refine ⟨watchman_read_write_int num (truncCast8_eq num hlo hhi) rest, ?_⟩
  rw [watchman_write_int_head]
  by_cases h1 : truncCast 1 num = num
  · rw [if_pos h1]
    have hr8 := e1.mp h1
    norm_num at hr8
    refine ⟨?_, ?_, ?_, ?_⟩ <;>
      simp only [WATCHMAN_INT8_MARKER, WATCHMAN_INT16_MARKER, WATCHMAN_INT32_MARKER,
        WATCHMAN_INT64_MARKER, Option.some.injEq] <;>
      norm_num <;> omega
  · rw [if_neg h1]
    have hnr8 : ¬ (-(2 ^ 7) ≤ num ∧ num < 2 ^ 7) := fun hr => h1 (e1.mpr hr)
    norm_num at hnr8
    by_cases h2 : truncCast 2 num = num
    · rw [if_pos h2]
      have hr16 := e2.mp h2
      norm_num at hr16
      refine ⟨?_, ?_, ?_, ?_⟩ <;>
        simp only [WATCHMAN_INT8_MARKER, WATCHMAN_INT16_MARKER, WATCHMAN_INT32_MARKER,
          WATCHMAN_INT64_MARKER, Option.some.injEq] <;>
        norm_num <;> omega
    · rw [if_neg h2]
      have hnr16 : ¬ (-(2 ^ 15) ≤ num ∧ num < 2 ^ 15) := fun hr => h2 (e2.mpr hr)
      norm_num at hnr16
      by_cases h4 : truncCast 4 num = num
      · rw [if_pos h4]
        have hr32 := e4.mp h4
        norm_num at hr32
        refine ⟨?_, ?_, ?_, ?_⟩ <;>
          simp only [WATCHMAN_INT8_MARKER, WATCHMAN_INT16_MARKER, WATCHMAN_INT32_MARKER,
            WATCHMAN_INT64_MARKER, Option.some.injEq] <;>
          norm_num <;> omega
      · rw [if_neg h4]
        have hnr32 : ¬ (-(2 ^ 31) ≤ num ∧ num < 2 ^ 31) := fun hr => h4 (e4.mpr hr)
        norm_num at hnr32
        refine ⟨?_, ?_, ?_, ?_⟩ <;>
          simp only [WATCHMAN_INT8_MARKER, WATCHMAN_INT16_MARKER, WATCHMAN_INT32_MARKER,
            WATCHMAN_INT64_MARKER, Option.some.injEq] <;>
          norm_num <;> omega

theorem claim_C4_write_int_roundtrip_narrowest_witness :
    watchman_read_int (watchman_write_int 100 ++ [7]) = some (100, [7]) ∧
    (watchman_write_int 100).head? = some WATCHMAN_INT8_MARKER ∧
    (watchman_write_int 1000).head? = some WATCHMAN_INT16_MARKER ∧
    (watchman_write_int 100000).head? = some WATCHMAN_INT32_MARKER :=
  ⟨(claim_C4_write_int_roundtrip_narrowest 100 [7] (by decide) (by decide)).1,
   (claim_C4_write_int_roundtrip_narrowest 100 [7] (by decide) (by decide)).2.1.mpr
     (by decide),
   (claim_C4_write_int_roundtrip_narrowest 1000 [] (by decide) (by decide)).2.2.1.mpr
     (by decide),
   (claim_C4_write_int_roundtrip_narrowest 100000 [] (by decide)
     (by decide)).2.2.2.1.mpr (by decide)⟩

/-- Claim C10: every decode operation either fails hard or strictly advances
the read cursor while never moving past the end (the remaining bytes are a
strictly shorter suffix), and `watchman_skip_value` — despite its mutual
recursion through nested arrays, objects and templates — terminates on every
finite buffer: its computation is well founded on the number of remaining
bytes, so any depth fuel exceeding that count yields the same result. -/
theorem claim_C10_decoders_advance_skip_terminates :
    (∀ (bytes : List Nat) (v : Int) rest, watchman_read_int bytes = some (v, rest) →
        rest.length < bytes.length ∧ rest <:+ bytes) ∧
    (∀ (bytes s rest : List Nat), watchman_read_string bytes = some (s, rest) →
        rest.length < bytes.length ∧ rest <:+ bytes) ∧
    (∀ (bytes d rest : List Nat), watchman_read_double bytes = some (d, rest) →
        rest.length < bytes.length ∧ rest <:+ bytes) ∧
    (∀ (bytes : List Nat) (n : Nat) rest, watchman_read_array bytes = some (n, rest) →
        rest.length < bytes.length ∧ rest <:+ bytes) ∧
    (∀ (bytes : List Nat) (n : Nat) rest, watchman_read_object bytes = some (n, rest) →
        rest.length < bytes.length ∧ rest <:+ bytes) ∧
    (∀ (bytes rest : List Nat), watchman_skip_value bytes = some rest →
        rest.length < bytes.length ∧ rest <:+ bytes) ∧
    (∀ (fuel : Nat) (bytes : List Nat), bytes.length < fuel →
        skipFuel fuel bytes = watchman_skip_value bytes) := by
  refine ⟨?_, ?_, ?_, ?_, ?_, watchman_skip_value_consumes, watchman_skip_value_fuel⟩
  · intro bytes v rest h
    have := watchman_read_int_consumes bytes v rest h
    exact ⟨by omega, this.2⟩
  · intro bytes s rest h
    have := watchman_read_string_consumes bytes s rest h
    exact ⟨by omega, this.2⟩
  · intro bytes d rest h
    have := watchman_read_double_consumes bytes d rest h
    exact ⟨by omega, this.2⟩
  · intro bytes n rest h
    have := watchman_read_array_consumes bytes n rest h
    exact ⟨by omega, this.2⟩
  · intro bytes n rest h
    have := watchman_read_object_consumes bytes n rest h
    exact ⟨by omega, this.2⟩

theorem claim_C10_decoders_advance_skip_terminates_witness :
    (([9] : List Nat).length < ([3, 5, 9] : List Nat).length ∧
      ([9] : List Nat) <:+ [3, 5, 9]) ∧
    skipFuel 9 [8, 7] = watchman_skip_value [8, 7] :=
  ⟨claim_C10_decoders_advance_skip_terminates.1 [3, 5, 9] 5 [9] (by decide),
   claim_C10_decoders_advance_skip_terminates.2.2.2.2.2.2 9 [8, 7] (by decide)⟩

/-- Claim C5 (refuted): `watchman_skip_value` is not content-accurate on
objects.  The object case of the C `switch` runs `count` skips for a header
declaring `count` key/value *pairs*, consuming only the keys-or-values up to
half the content.  On the encoding of the one-pair object `{"a": 1}`
(bytes `[1,3,1, 2,3,1,97, 3,1]`), skip stops right after the key `"a"`,
leaving the value bytes `[3,1]`, while the field-by-field decode with the
corresponding read functions (object header, key string, integer value)
consumes the whole value and ends at `[]`. -/
theorem claim_C5_skip_object_diverges_from_decode :
    watchman_skip_value [1, 3, 1, 2, 3, 1, 97, 3, 1] = some [3, 1] ∧
    watchman_read_object [1, 3, 1, 2, 3, 1, 97, 3, 1] = some (1, [2, 3, 1, 97, 3, 1]) ∧
    watchman_read_string [2, 3, 1, 97, 3, 1] = some ([97], [3, 1]) ∧
    watchman_read_int [3, 1] = some (1, []) ∧
    some ([3, 1] : List Nat) ≠ some ([] : List Nat) := by
  refine ⟨by decide, by decide, by decide, by decide, by decide⟩

/-- Claim C2 (refuted): after a fully successful receive, the response's end
cursor does not delimit the received message.  For the 6-byte framed stream
`[0,1,3,2,8,8]` (header size `peek_size = 4`, declared payload length 2) the
code stores `ptrIdx = 4` (immediately after the header, as claimed) but
`endIdx = peek_size + payload_size = 10`, where `payload_size = 6` already
includes the header; the claimed end `ptrIdx + 2 = 6` differs, and `endIdx`
lies beyond the 6 bytes actually read. -/
theorem claim_C2_response_end_cursor_overruns :
    watchman_send_query (commandt_watchman_watch_project_request [47])
      ((commandt_watchman_watch_project_request [47]).length : Int)
      [0, 1, 3, 2, 8, 8]
      = some { data := [0, 1, 3, 2, 8, 8], ptrIdx := 4, endIdx := 10 } ∧
    watchman_read_int (([0, 1, 3, 2, 8, 8].take 4).drop 2) = some (2, []) ∧
    (4 + 2 : Nat) ≠ 10 ∧
    ([0, 1, 3, 2, 8, 8] : List Nat).length < 10 := by
  refine ⟨by decide, by decide, by decide, by decide⟩

/-- Claim C1 (refuted in its second half): `commandt_watchman_query` builds
the documented request, but it frees the response unread and returns an
unpopulated result: whatever the daemon's reply stream contains, the result
carries no data (the extraction steps are TODO comments in the source).  The
second conjunct evaluates the call on a complete, successfully received
reply. -/
theorem claim_C1_query_result_unpopulated :
    (∀ (root : List Nat) (relative_root : Option (List Nat)) (sent : Int)
        (stream : List Nat) (r : watchman_query_result_t),
        commandt_watchman_query root relative_root sent stream = some r →
        r.files = none) ∧
    commandt_watchman_query [47] none
      ((commandt_watchman_query_request [47] none).length : Int)
      [0, 1, 3, 1, 8] = some { files := none } := by
  constructor
  · intro root relative_root sent stream r h
    unfold commandt_watchman_query at h
    cases hs : watchman_send_query (commandt_watchman_query_request root relative_root)
        sent stream with
    | none => rw [hs] at h; exact absurd h (by simp)
    | some resp =>
        rw [hs] at h
        simp only [Option.some.injEq] at h
        rw [← h]
  · decide

theorem claim_C1_query_result_unpopulated_witness :
    ({ files := none } : watchman_query_result_t).files = none :=
  claim_C1_query_result_unpopulated.1 [47] none
    ((commandt_watchman_query_request [47] none).length : Int)
    [0, 1, 3, 1, 8] { files := none } (by decide)

/-- Claim C6: `watchman_send_query` returns the null failure sentinel when
the send writes fewer bytes than the full request, when the sniff peek or
size-field peek cannot obtain the requested bytes, or when the final
blocking read cannot obtain the complete declared payload; and a successful
return always carries the complete received prefix — never partial data. -/
theorem claim_C6_send_query_short_io_fails :
    (∀ (request : List Nat) (sent : Int) (stream : List Nat),
        sent ≠ (request.length : Int) →
        watchman_send_query request sent stream = none) ∧
    (∀ (request : List Nat) (sent : Int) (stream : List Nat),
        stream.length < 3 →
        watchman_send_query request sent stream = none) ∧
    (∀ (request : List Nat) (sent : Int) (stream : List Nat),
        stream.length < 3 + watchman_sizes (stream.getD 2 0) →
        watchman_send_query request sent stream = none) ∧
    (∀ (request : List Nat) (sent : Int) (stream : List Nat) (declared : Int)
        (rest2 : List Nat),
        watchman_read_int
          ((stream.take (3 + watchman_sizes (stream.getD 2 0))).drop 2)
          = some (declared, rest2) →
        (stream.length : Int) <
          ((3 + watchman_sizes (stream.getD 2 0) : Nat) : Int) + declared →
        watchman_send_query request sent stream = none) ∧
    (∀ (request : List Nat) (sent : Int) (stream : List Nat)
        (resp : watchman_response_t),
        watchman_send_query request sent stream = some resp →
        sent = (request.length : Int) ∧ 3 ≤ stream.length ∧
        resp.data = stream.take resp.data.length ∧
        resp.data.length ≤ stream.length) := by
  refine ⟨?_, ?_, ?_, ?_, ?_⟩
  · intro request sent stream h
    unfold watchman_send_query
    rw [if_pos (Or.inr h)]
  · intro request sent stream h
    unfold watchman_send_query
    split_ifs <;> first | rfl | omega
  · intro request sent stream h
    unfold watchman_send_query
    split_ifs <;> first | rfl | omega
  · intro request sent stream declared rest2 hread hshort
    unfold watchman_send_query
    split_ifs with h1 h2 h3 h4 <;> try rfl
    simp only [hread]
    split_ifs <;> first | rfl | omega
  · intro request sent stream resp h
    unfold watchman_send_query at h
    split_ifs at h with h1 h2 h3 h4
    cases hread : watchman_read_int
        ((stream.take (3 + watchman_sizes (stream.getD 2 0))).drop 2) with
    | none =>
        simp only [hread] at h
        exact absurd h (by simp)
    | some p =>
        obtain ⟨declared, rest2⟩ := p
        simp only [hread] at h
        split_ifs at h with h5 h6
        simp only [Option.some.injEq] at h
        push_neg at h1
        refine ⟨h1.2, by omega, ?_, ?_⟩
        · rw [← h]
          have hlen : (stream.take
              (((3 + watchman_sizes (stream.getD 2 0) : Nat) : Int)
                + declared).toNat).length =
              (((3 + watchman_sizes (stream.getD 2 0) : Nat) : Int)
                + declared).toNat := by
            simp only [List.length_take]
            omega
          rw [hlen]
        · rw [← h]
          simp only [List.length_take]
          omega

/-- Claim C3 (refuted in its skip clause): the response loop of
`commandt_watchman_watch_project` stores a "watch" string value, treats an
"error" key as a hard failure, never returns a result with an absent watch
field (first and concrete conjuncts), and skips unrecognized keys — but the
skip is only safe for non-object values: because `watchman_skip_value`
under-consumes objects (half their items), an unrecognized key whose value
is an object desynchronizes the loop and the decode fails (last conjunct),
where the claim promises skipping "without causing a decode error". -/
theorem claim_C3_watch_project_response_processing :
    (∀ (bytes : List Nat) (r : watchman_watch_project_result_t),
        commandt_watchman_watch_project_process bytes = some r →
        r.watch ≠ none) ∧
    commandt_watchman_watch_project_process
      (watchman_write_object 3
        ++ watchman_write_string [118, 101, 114, 115, 105, 111, 110]
        ++ watchman_write_string [49, 46, 48]
        ++ watchman_write_string watchChars ++ watchman_write_string [47, 119]
        ++ watchman_write_string relativePathChars
        ++ watchman_write_string [115, 117, 98])
      = some { watch := some [47, 119], relative_path := some [115, 117, 98] } ∧
    commandt_watchman_watch_project_process
      (watchman_write_object 1 ++ watchman_write_string errorChars
        ++ watchman_write_string [102])
      = none ∧
    commandt_watchman_watch_project_process
      (watchman_write_object 1 ++ watchman_write_string relativePathChars
        ++ watchman_write_string [115])
      = none ∧
    commandt_watchman_watch_project_process
      (watchman_write_object 2
        ++ watchman_write_string [99, 108, 111, 99, 107]
        ++ (watchman_write_object 1 ++ watchman_write_string [120]
            ++ watchman_write_int 1)
        ++ watchman_write_string watchChars ++ watchman_write_string [47, 119])
      = none := by
  refine ⟨?_, by decide, by decide, by decide, by decide⟩
  intro bytes r h
  unfold commandt_watchman_watch_project_process at h
  cases hobj : watchman_read_object bytes with
  | none => rw [hobj] at h; exact absurd h (by simp)
  | some p =>
      obtain ⟨count, rest⟩ := p
      rw [hobj] at h
      cases hloop : watchProjectPairs count
          { watch := none, relative_path := none } rest with
      | none =>
          simp only [hloop] at h
          exact absurd h (by simp)
      | some q =>
          obtain ⟨result, rest2⟩ := q
          simp only [hloop] at h
          by_cases hw : result.watch = none
          · rw [if_pos hw] at h
            exact absurd h (by simp)
          · rw [if_neg hw] at h
            simp only [Option.some.injEq] at h
            rw [← h]
            exact hw

theorem claim_C3_watch_project_response_processing_witness :
    ({ watch := some [47, 119], relative_path := some [115, 117, 98] } :
      watchman_watch_project_result_t).watch ≠ none :=
  claim_C3_watch_project_response_processing.1
    (watchman_write_object 3
      ++ watchman_write_string [118, 101, 114, 115, 105, 111, 110]
      ++ watchman_write_string [49, 46, 48]
      ++ watchman_write_string watchChars ++ watchman_write_string [47, 119]
      ++ watchman_write_string relativePathChars
      ++ watchman_write_string [115, 117, 98])
    { watch := some [47, 119], relative_path := some [115, 117, 98] }
    (by decide)

/-- Claim C9: in both request builders every literal command name and option
key is encoded from `sizeof`, i.e. with `strlen+1` bytes whose last byte is
the NUL terminator, while the caller-supplied `root` and `relative_root`
strings are encoded with exactly `strlen` bytes and no terminator.  Decoding
the built requests field by field returns each literal payload as its
characters followed by a trailing 0, and the caller strings exactly. -/
theorem claim_C9_literals_carry_nul_terminator (root rr : List Nat)
    (hroot : ((root.length : Nat) : Int) < 2 ^ 63)
    (hrr : ((rr.length : Nat) : Int) < 2 ^ 63) :
    ∃ r1 r2 r3 r4 r5 r6 r7 r8 r9 r10 r11 r12 w1 w2,
      watchman_read_array ((commandt_watchman_query_request root (some rr)).drop 11)
        = some (3, r1) ∧
      watchman_read_string r1 = some (queryChars ++ [0], r2) ∧
      watchman_read_string r2 = some (root, r3) ∧
      watchman_read_object r3 = some (3, r4) ∧
      watchman_read_string r4 = some (expressionChars ++ [0], r5) ∧
      watchman_read_array r5 = some (2, r6) ∧
      watchman_read_string r6 = some (typeChars ++ [0], r7) ∧
      watchman_read_string r7 = some (fChars ++ [0], r8) ∧
      watchman_read_string r8 = some (fieldsChars ++ [0], r9) ∧
      watchman_read_array r9 = some (1, r10) ∧
      watchman_read_string r10 = some (nameChars ++ [0], r11) ∧
      watchman_read_string r11 = some (relativeRootChars ++ [0], r12) ∧
      watchman_read_string r12 = some (rr, []) ∧
      watchman_read_array ((commandt_watchman_watch_project_request root).drop 11)
        = some (2, w1) ∧
      watchman_read_string w1 = some (watchProjectChars ++ [0], w2) ∧
      watchman_read_string w2 = some (root, []) ∧
      (queryChars ++ [0]).length = queryChars.length + 1 ∧
      (queryChars ++ [0]).getLast? = some 0 := by
  have hq : (commandt_watchman_query_request root (some rr)).drop 11
      = watchman_write_array 3 ++ (watchman_write_string (queryChars ++ [0]) ++
        (watchman_write_string root ++ (watchman_write_object 3 ++
        (watchman_write_string (expressionChars ++ [0]) ++ (watchman_write_array 2 ++
        (watchman_write_string (typeChars ++ [0]) ++
        (watchman_write_string (fChars ++ [0]) ++
        (watchman_write_string (fieldsChars ++ [0]) ++ (watchman_write_array 1 ++
        (watchman_write_string (nameChars ++ [0]) ++
        (watchman_write_string (relativeRootChars ++ [0]) ++
          watchman_write_string rr))))))))))) := by
    unfold commandt_watchman_query_request
    simp only [Option.isSome_some, if_true, List.append_assoc]
    rw [List.drop_left' (show WATCHMAN_HEADER_BYTES.length = 11 from rfl)]
  have hw : (commandt_watchman_watch_project_request root).drop 11
      = watchman_write_array 2 ++ (watchman_write_string (watchProjectChars ++ [0]) ++
          watchman_write_string root) := by
    unfold commandt_watchman_watch_project_request
    simp only [List.append_assoc]
    rw [List.drop_left' (show WATCHMAN_HEADER_BYTES.length = 11 from rfl)]
  refine ⟨watchman_write_string (queryChars ++ [0]) ++ (watchman_write_string root ++
      (watchman_write_object 3 ++ (watchman_write_string (expressionChars ++ [0]) ++
      (watchman_write_array 2 ++ (watchman_write_string (typeChars ++ [0]) ++
      (watchman_write_string (fChars ++ [0]) ++
      (watchman_write_string (fieldsChars ++ [0]) ++ (watchman_write_array 1 ++
      (watchman_write_string (nameChars ++ [0]) ++
      (watchman_write_string (relativeRootChars ++ [0]) ++
        watchman_write_string rr)))))))))),
    watchman_write_string root ++
      (watchman_write_object 3 ++ (watchman_write_string (expressionChars ++ [0]) ++
      (watchman_write_array 2 ++ (watchman_write_string (typeChars ++ [0]) ++
      (watchman_write_string (fChars ++ [0]) ++
      (watchman_write_string (fieldsChars ++ [0]) ++ (watchman_write_array 1 ++
      (watchman_write_string (nameChars ++ [0]) ++
      (watchman_write_string (relativeRootChars ++ [0]) ++
        watchman_write_string rr))))))))),
    watchman_write_object 3 ++ (watchman_write_string (expressionChars ++ [0]) ++
      (watchman_write_array 2 ++ (watchman_write_string (typeChars ++ [0]) ++
      (watchman_write_string (fChars ++ [0]) ++
      (watchman_write_string (fieldsChars ++ [0]) ++ (watchman_write_array 1 ++
      (watchman_write_string (nameChars ++ [0]) ++
      (watchman_write_string (relativeRootChars ++ [0]) ++
        watchman_write_string rr)))))))),
    watchman_write_string (expressionChars ++ [0]) ++
      (watchman_write_array 2 ++ (watchman_write_string (typeChars ++ [0]) ++
      (watchman_write_string (fChars ++ [0]) ++
      (watchman_write_string (fieldsChars ++ [0]) ++ (watchman_write_array 1 ++
      (watchman_write_string (nameChars ++ [0]) ++
      (watchman_write_string (relativeRootChars ++ [0]) ++
        watchman_write_string rr))))))),
    watchman_write_array 2 ++ (watchman_write_string (typeChars ++ [0]) ++
      (watchman_write_string (fChars ++ [0]) ++
      (watchman_write_string (fieldsChars ++ [0]) ++ (watchman_write_array 1 ++
      (watchman_write_string (nameChars ++ [0]) ++
      (watchman_write_string (relativeRootChars ++ [0]) ++
        watchman_write_string rr)))))),
    watchman_write_string (typeChars ++ [0]) ++
      (watchman_write_string (fChars ++ [0]) ++
      (watchman_write_string (fieldsChars ++ [0]) ++ (watchman_write_array 1 ++
      (watchman_write_string (nameChars ++ [0]) ++
      (watchman_write_string (relativeRootChars ++ [0]) ++
        watchman_write_string rr))))),
    watchman_write_string (fChars ++ [0]) ++
      (watchman_write_string (fieldsChars ++ [0]) ++ (watchman_write_array 1 ++
      (watchman_write_string (nameChars ++ [0]) ++
      (watchman_write_string (relativeRootChars ++ [0]) ++
        watchman_write_string rr)))),
    watchman_write_string (fieldsChars ++ [0]) ++ (watchman_write_array 1 ++
      (watchman_write_string (nameChars ++ [0]) ++
      (watchman_write_string (relativeRootChars ++ [0]) ++
        watchman_write_string rr))),
    watchman_write_array 1 ++
      (watchman_write_string (nameChars ++ [0]) ++
      (watchman_write_string (relativeRootChars ++ [0]) ++
        watchman_write_string rr)),
    watchman_write_string (nameChars ++ [0]) ++
      (watchman_write_string (relativeRootChars ++ [0]) ++ watchman_write_string rr),
    watchman_write_string (relativeRootChars ++ [0]) ++ watchman_write_string rr,
    watchman_write_string rr,
    watchman_write_string (watchProjectChars ++ [0]) ++ watchman_write_string root,
    watchman_write_string root,
    ?_, ?_, ?_, ?_, ?_, ?_, ?_, ?_, ?_, ?_, ?_, ?_, ?_, ?_, ?_, ?_, ?_, ?_⟩
  · rw [hq]; exact watchman_read_write_array 3 (by decide) _
  · exact watchman_read_write_string (queryChars ++ [0]) (by decide) _
  · exact watchman_read_write_string root hroot _
  · exact watchman_read_write_object 3 (by decide) _
  · exact watchman_read_write_string (expressionChars ++ [0]) (by decide) _
  · exact watchman_read_write_array 2 (by decide) _
  · exact watchman_read_write_string (typeChars ++ [0]) (by decide) _
  · exact watchman_read_write_string (fChars ++ [0]) (by decide) _
  · exact watchman_read_write_string (fieldsChars ++ [0]) (by decide) _
  · exact watchman_read_write_array 1 (by decide) _
  · exact watchman_read_write_string (nameChars ++ [0]) (by decide) _
  · exact watchman_read_write_string (relativeRootChars ++ [0]) (by decide) _
  · simpa using watchman_read_write_string rr hrr []
  · rw [hw]; exact watchman_read_write_array 2 (by decide) _
  · exact watchman_read_write_string (watchProjectChars ++ [0]) (by decide) _
  · simpa using watchman_read_write_string root hroot []
  · decide
  · decide

/-- Witness for C9: the field-by-field decode chain at `root = "/"` and
`relative_root = "s"`. -/
theorem claim_C9_literals_carry_nul_terminator_witness :
    ((([47] : List Nat).length : Int) < 2 ^ 63) ∧
    ((([115] : List Nat).length : Int) < 2 ^ 63) ∧
    (∃ r1 r2 r3 r4 r5 r6 r7 r8 r9 r10 r11 r12 w1 w2,
      watchman_read_array ((commandt_watchman_query_request [47] (some [115])).drop 11)
        = some (3, r1) ∧
      watchman_read_string r1 = some (queryChars ++ [0], r2) ∧
      watchman_read_string r2 = some ([47], r3) ∧
      watchman_read_object r3 = some (3, r4) ∧
      watchman_read_string r4 = some (expressionChars ++ [0], r5) ∧
      watchman_read_array r5 = some (2, r6) ∧
      watchman_read_string r6 = some (typeChars ++ [0], r7) ∧
      watchman_read_string r7 = some (fChars ++ [0], r8) ∧
      watchman_read_string r8 = some (fieldsChars ++ [0], r9) ∧
      watchman_read_array r9 = some (1, r10) ∧
      watchman_read_string r10 = some (nameChars ++ [0], r11) ∧
      watchman_read_string r11 = some (relativeRootChars ++ [0], r12) ∧
      watchman_read_string r12 = some ([115], []) ∧
      watchman_read_array ((commandt_watchman_watch_project_request [47]).drop 11)
        = some (2, w1) ∧
      watchman_read_string w1 = some (watchProjectChars ++ [0], w2) ∧
      watchman_read_string w2 = some ([47], []) ∧
      (queryChars ++ [0]).length = queryChars.length + 1 ∧
      (queryChars ++ [0]).getLast? = some 0) :=
  ⟨by decide, by decide,
    claim_C9_literals_carry_nul_terminator [47] [115] (by decide) (by decide)⟩

/-- Witness for C6: a send that reports 5 bytes written for a 1-byte request
makes `watchman_send_query` fail. -/
theorem claim_C6_send_query_short_io_fails_witness :
    (5 : Int) ≠ (([1] : List Nat).length : Int) ∧
    watchman_send_query [1] 5 [] = none :=
  ⟨by decide, claim_C6_send_query_short_io_fails.1 [1] 5 [] (by decide)⟩

/-! ### Pure shape facts about the heap operations (no invariant needed) -/

theorem heap_bubble_up_shape [Inhabited α] :
    ∀ (fuel : Nat) (h : heap_t α) (idx : Nat),
      (heap_bubble_up fuel h idx).entries.length = h.entries.length ∧
      (heap_bubble_up fuel h idx).capacity = h.capacity := by
  intro fuel
  induction fuel with
  | zero => intro h idx; exact ⟨rfl, rfl⟩
  | succ fuel ih =>
      intro h idx
      simp only [heap_bubble_up]
      split_ifs with h0 hp
      · exact ⟨rfl, rfl⟩
      · exact ⟨rfl, rfl⟩
      · have hrec := ih (heap_swap h idx (HEAP_PARENT idx)) (HEAP_PARENT idx)
        exact ⟨hrec.1.trans (heap_swap_length h idx (HEAP_PARENT idx)),
          hrec.2.trans (heap_swap_capacity h idx (HEAP_PARENT idx))⟩

theorem heap_heapify_shape [Inhabited α] :
    ∀ (fuel : Nat) (h : heap_t α) (idx : Nat),
      (heap_heapify fuel h idx).entries.length = h.entries.length ∧
      (heap_heapify fuel h idx).capacity = h.capacity := by
  intro fuel
  induction fuel with
  | zero => intro h idx; exact ⟨rfl, rfl⟩
  | succ fuel ih =>
      intro h idx
      simp only [heap_heapify]
      split_ifs with hc
      · have hrec := ih (heap_swap h idx (heap_smallest h idx)) (heap_smallest h idx)
        exact ⟨hrec.1.trans (heap_swap_length h idx (heap_smallest h idx)),
          hrec.2.trans (heap_swap_capacity h idx (heap_smallest h idx))⟩
      · exact ⟨rfl, rfl⟩

theorem heap_insert_shape [Inhabited α] (h : heap_t α) (v : α) :
    (heap_insert h v).capacity = h.capacity ∧
    ((heap_insert h v).entries.length = h.entries.length ∨
      (heap_insert h v).entries.length = h.entries.length + 1) ∧
    (h.entries.length ≤ h.capacity →
      (heap_insert h v).entries.length ≤ h.capacity) := by
  unfold heap_insert
  split_ifs with hfull
  · exact ⟨rfl, Or.inl rfl, fun hle => hle⟩
  · have hs := heap_bubble_up_shape h.entries.length
      { h with entries := h.entries ++ [v] } h.entries.length
    refine ⟨hs.2, Or.inr ?_, fun hle => ?_⟩
    · rw [hs.1]; simp
    · rw [hs.1]
      simp only [List.length_append, List.length_cons, List.length_nil]
      omega

theorem heap_extract_shape [Inhabited α] (h : heap_t α) :
    (heap_extract h).2.capacity = h.capacity ∧
    (heap_extract h).2.entries.length ≤ h.entries.length := by
  by_cases hz : h.entries.length = 0
  · have hx : heap_extract h = (none, h) := by
      unfold heap_extract
      rw [if_pos hz]
    rw [hx]
    exact ⟨rfl, le_refl _⟩
  · rw [heap_extract_eq h (by omega)]
    have hs := heap_heapify_shape
      ((h.entries.set 0 (heap_get h (h.entries.length - 1))).dropLast).length
      { h with entries :=
          (h.entries.set 0 (heap_get h (h.entries.length - 1))).dropLast } 0
    refine ⟨hs.2, ?_⟩
    rw [hs.1]
    simp only [List.length_dropLast, List.length_set]
    omega

/-- Claim C7: for any comparator forming a total preorder and any batch of at
most `capacity` insertions, draining the heap by repeated extraction yields a
permutation of the inserted values in which no later extraction beats an
earlier one (extraction order is a full sort under the comparator); each
extract on a non-empty heap returns the current root; and the downward sift
compares both children whenever two children exist. -/
theorem claim_C7_heap_extraction_sorted [Inhabited α] (cap : Nat)
    (cmp : α → α → Int) (xs : List α)
    (htot : CmpTotal cmp) (htr : CmpTrans cmp) (hlen : xs.length ≤ cap) :
    List.Perm (heap_drain (heap_insert_all xs (heap_new cap cmp))) xs ∧
    List.Pairwise (fun a b => cmp b a ≤ 0)
      (heap_drain (heap_insert_all xs (heap_new cap cmp))) ∧
    (∀ (h : heap_t α), 0 < h.entries.length →
        (heap_extract h).1 = some (heap_get h 0)) ∧
    (∀ (h : heap_t α) (idx : Nat), HEAP_RIGHT idx < h.entries.length →
        heap_smallest h idx =
          if heap_compare h (HEAP_LEFT idx) (HEAP_RIGHT idx) > 0 then HEAP_LEFT idx
          else HEAP_RIGHT idx) := by
  have hinv0 : HeapInv (heap_new (α := α) cap cmp) := by
    intro i h1 h2
    simp [heap_new] at h2
  have hins := heap_insert_all_spec xs (heap_new (α := α) cap cmp) htot htr hinv0
    (by simpa [heap_new] using hlen)
  have hext := heap_extract_all_spec
    (heap_insert_all xs (heap_new (α := α) cap cmp)).entries.length
    (heap_insert_all xs (heap_new (α := α) cap cmp))
    (by rw [hins.1]; exact htot) (by rw [hins.1]; exact htr)
    hins.2.2.2.2 (le_refl _)
  refine ⟨?_, ?_, ?_, ?_⟩
  · refine hext.1.trans (hins.2.2.2.1.trans ?_)
    simp [heap_new]
  · have hp := hext.2
    rw [hins.1] at hp
    exact hp
  · intro h hpos
    rw [heap_extract_eq h hpos]
  · intro h idx hr
    unfold heap_smallest
    rw [if_pos hr]

/-- Witness for C7: inserting 5, 1, 9, 3 into a capacity-4 max-heap under the
difference comparator and draining it. -/
theorem claim_C7_heap_extraction_sorted_witness :
    CmpTotal (fun a b : Int => a - b) ∧ CmpTrans (fun a b : Int => a - b) ∧
    ([5, 1, 9, 3] : List Int).length ≤ 4 ∧
    (List.Perm (heap_drain (heap_insert_all ([5, 1, 9, 3] : List Int)
        (heap_new 4 (fun a b : Int => a - b)))) [5, 1, 9, 3] ∧
      List.Pairwise (fun a b : Int => (fun a b : Int => a - b) b a ≤ 0)
        (heap_drain (heap_insert_all ([5, 1, 9, 3] : List Int)
          (heap_new 4 (fun a b : Int => a - b)))) ∧
      (∀ (h : heap_t Int), 0 < h.entries.length →
          (heap_extract h).1 = some (heap_get h 0)) ∧
      (∀ (h : heap_t Int) (idx : Nat), HEAP_RIGHT idx < h.entries.length →
          heap_smallest h idx =
            if heap_compare h (HEAP_LEFT idx) (HEAP_RIGHT idx) > 0 then HEAP_LEFT idx
            else HEAP_RIGHT idx)) :=
  ⟨fun a b => by
      show a - b ≤ 0 ∨ b - a ≤ 0
      omega,
    fun a b c h1 h2 => by
      have h1' : a - b ≤ 0 := h1
      have h2' : b - c ≤ 0 := h2
      show a - c ≤ 0
      omega,
    by decide,
    claim_C7_heap_extraction_sorted 4 (fun a b : Int => a - b) [5, 1, 9, 3]
      (fun a b => by
        show a - b ≤ 0 ∨ b - a ≤ 0
        omega)
      (fun a b c h1 h2 => by
        have h1' : a - b ≤ 0 := h1
        have h2' : b - c ≤ 0 := h2
        show a - c ≤ 0
        omega)
      (by decide)⟩

/-- Claim C8: capacity is a hard ceiling.  Inserting into a full heap is the
identity (no error, no change to `count` or any stored entry); one insert or
extract never changes the capacity and preserves `count ≤ capacity`; hence
every sequence of inserts and extracts starting from a fresh heap keeps
`count ≤ capacity` after each operation. -/
theorem claim_C8_capacity_is_hard_ceiling [Inhabited α] :
    (∀ (h : heap_t α) (v : α), h.entries.length = h.capacity →
        heap_insert h v = h) ∧
    (∀ (h : heap_t α) (op : HeapOp α),
        (heap_apply h op).capacity = h.capacity ∧
        (h.entries.length ≤ h.capacity →
          (heap_apply h op).entries.length ≤ (heap_apply h op).capacity)) ∧
    (∀ (ops : List (HeapOp α)) (cap : Nat) (cmp : α → α → Int),
        (heap_apply_all ops (heap_new cap cmp)).capacity = cap ∧
        (heap_apply_all ops (heap_new cap cmp)).entries.length ≤ cap) := by
  have hstep : ∀ (h : heap_t α) (op : HeapOp α),
      (heap_apply h op).capacity = h.capacity ∧
      (h.entries.length ≤ h.capacity →
        (heap_apply h op).entries.length ≤ (heap_apply h op).capacity) := by
    intro h op
    cases op with
    | ins v =>
        have hs := heap_insert_shape h v
        exact ⟨hs.1, fun hle => by
          show (heap_insert h v).entries.length ≤ (heap_insert h v).capacity
          rw [hs.1]
          exact hs.2.2 hle⟩
    | ext =>
        have hs := heap_extract_shape h
        exact ⟨hs.1, fun hle => by
          show (heap_extract h).2.entries.length ≤ (heap_extract h).2.capacity
          rw [hs.1]
          exact le_trans hs.2 hle⟩
  have hall : ∀ (ops : List (HeapOp α)) (h : heap_t α),
      h.entries.length ≤ h.capacity →
      (heap_apply_all ops h).capacity = h.capacity ∧
      (heap_apply_all ops h).entries.length ≤ h.capacity := by
    intro ops
    induction ops with
    | nil => intro h hle; exact ⟨rfl, hle⟩
    | cons op tl ih =>
        intro h hle
        have hs := hstep h op
        have hle2 : (heap_apply h op).entries.length ≤ (heap_apply h op).capacity :=
          hs.2 hle
        have hrec := ih (heap_apply h op) hle2
        show (heap_apply_all tl (heap_apply h op)).capacity = h.capacity ∧
          (heap_apply_all tl (heap_apply h op)).entries.length ≤ h.capacity
        refine ⟨hrec.1.trans hs.1, ?_⟩
        exact le_of_le_of_eq hrec.2 hs.1

  refine ⟨fun h v hfull => heap_insert_full h v hfull, hstep, ?_⟩
  intro ops cap cmp
  have h0 : (heap_new (α := α) cap cmp).entries.length
      ≤ (heap_new (α := α) cap cmp).capacity := by
    simp [heap_new]
  exact hall ops (heap_new cap cmp) h0

/-- Witness for C8: inserting into a full one-slot heap changes nothing. -/
theorem claim_C8_capacity_is_hard_ceiling_witness :
    ({ comparator := fun a b : Int => a - b, capacity := 1,
        entries := [7] } : heap_t Int).entries.length
      = ({ comparator := fun a b : Int => a - b, capacity := 1,
            entries := [7] } : heap_t Int).capacity ∧
    heap_insert ({ comparator := fun a b : Int => a - b, capacity := 1,
                    entries := [7] } : heap_t Int) 9
      = { comparator := fun a b : Int => a - b, capacity := 1, entries := [7] } :=
  ⟨rfl, claim_C8_capacity_is_hard_ceiling.1
    { comparator := fun a b : Int => a - b, capacity := 1, entries := [7] } 9 rfl⟩
